import Mathlib

/-!
# Verification of the `avl` Go package (danswartzendruber/avl)

This file gives a shallow embedding of `avl.go` and proves properties of it.

Two embeddings are used:

* A *functional* model (`Avl` namespace).  The Go code is an intrusive AVL
  tree mutated through child/parent pointers; its bottom-up rebalancing
  ascent via `parent` pointers corresponds exactly to the return path of a
  structural recursion, so each Go function is translated into a pure
  function on an inductive tree carrying the stored (biased) balance field.
  The balance field stores `balanceFactor + 1`, exactly as the Go code keeps
  `int8(balance + 1)` (`avlSetParentBalance`, `avlGetBalanceFactor`).

* A *heap* model (`AvlH` namespace) in which nodes live at `Nat` addresses
  in a store of records with `left`/`right`/`parent`/`owner`/`balance`
  fields, faithfully mirroring the pointer manipulations of the source.
  This model is used for the claims that are genuinely about pointers
  (parent rewiring, removal of unlinked nodes, field initialization).

Go comparators return a negative / zero / positive `int`; they are modelled
as functions into `Int`, and order-theoretic theorems assume the comparator
agrees with a linear order (`LawfulCmp`).
-/

namespace Avl

/-- Functional counterpart of the Go `AvlNode` spine: an AVL tree whose
nodes carry the *stored* balance byte (`balance = balanceFactor + 1`, as in
the Go code) and the `owner` payload.  `left`/`right` pointers become the
two subtrees; the `parent` pointer is represented by the recursion context. -/
inductive AvlTree (α : Type) where
  | nil : AvlTree α
  | node (left : AvlTree α) (balance : Int) (owner : α) (right : AvlTree α) : AvlTree α
deriving Repr, DecidableEq

open AvlTree

variable {α : Type}

/-- Go `avlGetChild`: left child for `sign < 0`, right child otherwise. -/
def avlGetChild (t : AvlTree α) (sign : Int) : AvlTree α :=
  match t with
  | nil => nil
  | node l _ _ r => if sign < 0 then l else r

/-- Go `avlSetChild`: replace the left (`sign < 0`) or right child. -/
def avlSetChild (t : AvlTree α) (sign : Int) (c : AvlTree α) : AvlTree α :=
  match t with
  | nil => nil
  | node l b o r => if sign < 0 then node c b o r else node l b o c

/-- The stored balance byte of the root node (Go field `balance`). -/
def balanceOf (t : AvlTree α) : Int :=
  match t with
  | nil => 0
  | node _ b _ _ => b

/-- The root payload, if any (Go field `owner`). -/
def ownerOf (t : AvlTree α) : Option α :=
  match t with
  | nil => none
  | node _ _ o _ => some o

/-- Go `avlGetBalanceFactor`: stored balance minus 1. -/
def avlGetBalanceFactor (t : AvlTree α) : Int :=
  balanceOf t - 1

/-- Go `avlAdjustBalanceFactor`: add `amount` to the stored balance. -/
def avlAdjustBalanceFactor (t : AvlTree α) (amount : Int) : AvlTree α :=
  match t with
  | nil => nil
  | node l b o r => node l (b + amount) o r

/-- The balance-setting part of Go `avlSetParentBalance`: store
`balance + 1` (the parent-pointer part is implicit in this model). -/
def avlSetBalanceFactor (t : AvlTree α) (balance : Int) : AvlTree α :=
  match t with
  | nil => nil
  | node l _ o r => node l (balance + 1) o r

/-- Go `avlRotate` (pointer rewiring only; the caller's slot update
`avlReplaceChild` is the value returned here).  `sign > 0` rotates
clockwise at `A`, `sign < 0` counterclockwise. -/
def avlRotate (A : AvlTree α) (sign : Int) : AvlTree α :=
  let B := avlGetChild A (-sign)
  let E := avlGetChild B sign
  let A2 := avlSetChild A (-sign) E
  avlSetChild B sign A2

/-- Go `avlDoDoubleRotate`: combined double rotation rooted at `B` (child
of `A` on the `-sign` side) and then `A`; updates the balance factors of
`A`, `B` and `E` from `E`'s pre-rotation balance factor and returns the
new subtree root `E`. -/
def avlDoDoubleRotate (B A : AvlTree α) (sign : Int) : AvlTree α :=
  let E := avlGetChild B sign
  let F := avlGetChild E (-sign)
  let G := avlGetChild E sign
  let e := avlGetBalanceFactor E
  let A2 := avlSetChild A (-sign) G
  let A3 := if 0 ≤ sign * e then avlSetBalanceFactor A2 0 else avlSetBalanceFactor A2 (-e)
  let B2 := avlSetChild B sign F
  let B3 := if sign * e ≤ 0 then avlSetBalanceFactor B2 0 else avlSetBalanceFactor B2 (-e)
  avlSetBalanceFactor (avlSetChild (avlSetChild E sign A3) (-sign) B3) 0

/-- Go `avlHandleSubtreeGrowth`: the subtree of `parent` on the `sign`
side has grown by one.  Adjusts the balance factor of `parent` and rotates
if needed.  Returns the new subtree and the Go return value (`true` if the
whole tree is adequately balanced, `false` if the subtree grew and the
caller must continue the ascent).  In the Go code the balance adjustments
after the single rotation go through pointers to `parent` and `node`;
after `avlRotate parent (-sign)` those are the root of the result and its
child on the `-sign` side. -/
def avlHandleSubtreeGrowth (parent : AvlTree α) (sign : Int) : AvlTree α × Bool :=
  let oldBalanceFactor := avlGetBalanceFactor parent
  if oldBalanceFactor = 0 then
    (avlAdjustBalanceFactor parent sign, false)
  else if oldBalanceFactor + sign = 0 then
    (avlAdjustBalanceFactor parent sign, true)
  else
    let nd := avlGetChild parent sign
    if 0 < sign * avlGetBalanceFactor nd then
      let r := avlRotate parent (-sign)
      let r1 := avlAdjustBalanceFactor r (-sign)
      let r2 := avlSetChild r1 (-sign)
        (avlAdjustBalanceFactor (avlGetChild r1 (-sign)) (-sign))
      (r2, true)
    else
      (avlDoDoubleRotate nd parent (-sign), true)

/-- The descent-and-link loop of Go `AvlTreeInsert` fused with the ascent
of `avlTreeRebalanceAfterInsert`.  Returns the new subtree, whether the
subtree height grew by one (the ascent-continuation condition of the Go
loop: `grew = !done`), and the owner of an exact-match node if one was
found (in which case the tree is returned unchanged, as in the Go early
`return cur.owner`).  A freshly linked leaf has stored balance `1`
(`item.balance = 1` in the source); the first ascent step of the Go code
(adjust the new leaf's parent, stop if its balance factor becomes 0) is
the `oldBalanceFactor = 0` / `oldBalanceFactor + sign = 0` cases of
`avlHandleSubtreeGrowth`, which cannot rotate there, so the handler is
used uniformly. -/
def avlTreeInsertAux (cmp : α → α → Int) (t : AvlTree α) (ow : α) :
    AvlTree α × Bool × Option α :=
  match t with
  | nil => (node nil 1 ow nil, true, none)
  | node l b o r =>
    let res := cmp ow o
    if res < 0 then
      match avlTreeInsertAux cmp l ow with
      | (_, _, some d) => (node l b o r, false, some d)
      | (l', grew, none) =>
        if grew then
          match avlHandleSubtreeGrowth (node l' b o r) (-1) with
          | (t', done) => (t', !done, none)
        else (node l' b o r, false, none)
    else if 0 < res then
      match avlTreeInsertAux cmp r ow with
      | (_, _, some d) => (node l b o r, false, some d)
      | (r', grew, none) =>
        if grew then
          match avlHandleSubtreeGrowth (node l b o r') 1 with
          | (t', done) => (t', !done, none)
        else (node l b o r', false, none)
    else (node l b o r, false, some o)

/-- Go `AvlTreeInsert`: returns the updated tree (the Go `*root`) and
`none` on success or the owner of the already-present node. -/
def AvlTreeInsert (cmp : α → α → Int) (root : AvlTree α) (ow : α) :
    AvlTree α × Option α :=
  match avlTreeInsertAux cmp root ow with
  | (t', _, dup) => (t', dup)

/-- The descent part of Go `AvlTreeInsert` alone (lines up to
`*curPtr = item`), without rebalancing: returns the tree with the new node
linked as a leaf at the discovered empty position (stored balance 1 =
neutral), or the tree unchanged plus the existing owner on an exact match. -/
def avlTreeLinkOnly (cmp : α → α → Int) (t : AvlTree α) (ow : α) :
    AvlTree α × Option α :=
  match t with
  | nil => (node nil 1 ow nil, none)
  | node l b o r =>
    let res := cmp ow o
    if res < 0 then
      match avlTreeLinkOnly cmp l ow with
      | (l', d) => (node l' b o r, d)
    else if 0 < res then
      match avlTreeLinkOnly cmp r ow with
      | (r', d) => (node l b o r', d)
    else (node l b o r, some o)

/-- Go `avlHandleSubtreeShrink`: the subtree of `parent` on the `-sign`
side has shrunk by one (`sign = +1` when the left subtree shrank, matching
the Go convention).  Returns the new subtree and `true` when the subtree
height shrank and the ascent must continue (the Go function returning the
grandparent), `false` when the tree is adequately balanced (Go returning
nil).  The Go code rotates first and then tests `avlGetBalanceFactor(node)`;
`avlRotate` does not change stored balances, so the root of the rotated
subtree still carries `node`'s balance. -/
def avlHandleSubtreeShrink (parent : AvlTree α) (sign : Int) : AvlTree α × Bool :=
  let oldBalanceFactor := avlGetBalanceFactor parent
  if oldBalanceFactor = 0 then
    (avlAdjustBalanceFactor parent sign, false)
  else if oldBalanceFactor + sign = 0 then
    (avlAdjustBalanceFactor parent sign, true)
  else
    let nd := avlGetChild parent sign
    if 0 ≤ sign * avlGetBalanceFactor nd then
      let r := avlRotate parent (-sign)
      if avlGetBalanceFactor r = 0 then
        (avlAdjustBalanceFactor r (-sign), false)
      else
        let r1 := avlAdjustBalanceFactor r (-sign)
        let r2 := avlSetChild r1 (-sign)
          (avlAdjustBalanceFactor (avlGetChild r1 (-sign)) (-sign))
        (r2, true)
    else
      (avlDoDoubleRotate nd parent (-sign), true)

/-- The successor-chase of Go `avlTreeSwapWithSuccessor` as seen from the
right subtree of the removed node: removes the leftmost node, returning
the new subtree, whether it shrank, and the removed (minimum) owner.
`none` iff the subtree is empty.  The Go `Q.left = Y.right` splice is the
base case; each level of the `Q`/`Y` descent corresponds to one recursive
call, whose return path performs the `leftDeleted = true` shrink steps of
the Go rebalancing loop. -/
def avlRemoveMin (t : AvlTree α) : Option (AvlTree α × Bool × α) :=
  match t with
  | nil => none
  | node l b o r =>
    match avlRemoveMin l with
    | none => some (r, true, o)
    | some (l', shrank, m) =>
      if shrank then
        match avlHandleSubtreeShrink (node l' b o r) 1 with
        | (t', sh') => some (t', sh', m)
      else some (node l' b o r, false, m)

/-- Go `AvlTreeRemove`, locating the node by its key (the Go function
receives the node pointer; under the BST invariant the node holding a key
is unique and is found by the comparator descent).  Returns the new
subtree, whether it shrank by one, and whether the key was found.  The
two-children case mirrors `avlTreeSwapWithSuccessor`: the successor `Y`
takes the removed node's position, children and stored balance
(`Y.balance = X.balance`), and the shrink ascent enters this node from the
right side (`leftDeleted = false`, sign `-1`). -/
def avlTreeRemoveAux (cmp : α → α → Int) (t : AvlTree α) (k : α) :
    AvlTree α × Bool × Bool :=
  match t with
  | nil => (nil, false, false)
  | node l b o r =>
    let res := cmp k o
    if res < 0 then
      match avlTreeRemoveAux cmp l k with
      | (l', shrank, found) =>
        if found then
          if shrank then
            match avlHandleSubtreeShrink (node l' b o r) 1 with
            | (t', sh') => (t', sh', true)
          else (node l' b o r, false, true)
        else (node l b o r, false, false)
    else if 0 < res then
      match avlTreeRemoveAux cmp r k with
      | (r', shrank, found) =>
        if found then
          if shrank then
            match avlHandleSubtreeShrink (node l b o r') (-1) with
            | (t', sh') => (t', sh', true)
          else (node l b o r', false, true)
        else (node l b o r, false, false)
    else
      match l with
      | nil => (r, true, true)
      | node ll lb lo lr =>
        match r with
        | nil => (node ll lb lo lr, true, true)
        | node rl rb ro rr =>
          match avlRemoveMin (node rl rb ro rr) with
          | none => (nil, false, false)
          | some (r', shrank, m) =>
            if shrank then
              match avlHandleSubtreeShrink (node (node ll lb lo lr) b m r') (-1) with
              | (t', sh') => (t', sh', true)
            else (node (node ll lb lo lr) b m r', false, true)

/-- Go `AvlTreeRemove` at the tree level: the updated `*root`. -/
def avlTreeRemoveKey (cmp : α → α → Int) (t : AvlTree α) (k : α) : AvlTree α :=
  (avlTreeRemoveAux cmp t k).1

/-- Go `AvlTreeLookup`: comparator descent; `some owner` on `cmp = 0`. -/
def AvlTreeLookup (cmp : α → α → Int) (t : AvlTree α) (key : α) : Option α :=
  match t with
  | nil => none
  | node l _ o r =>
    let res := cmp key o
    if res < 0 then AvlTreeLookup cmp l key
    else if 0 < res then AvlTreeLookup cmp r key
    else some o

/-! ## In-order traversal (Go `avlTreeFirstOrLastInOrder`, `avlTreeNextOrPrevInOrder`)

The Go traversal walks `parent` pointers.  A position in the tree is
modelled as a subtree plus the path of ancestors above it (each path frame
records on which side the position hangs and the rest of that ancestor);
the `parent` pointer dereference of the source is popping a frame. -/

/-- The ancestor chain above a position: the functional image of the
`parent` pointers.  `left b o r p` means the position is the *left* child
of a node with stored balance `b`, owner `o` and right subtree `r`. -/
inductive AvlPath (α : Type) where
  | root : AvlPath α
  | left (balance : Int) (owner : α) (right : AvlTree α) (p : AvlPath α) : AvlPath α
  | right (left : AvlTree α) (balance : Int) (owner : α) (p : AvlPath α) : AvlPath α
deriving Repr, DecidableEq

/-- Go `avlTreeFirstOrLastInOrder` relative to a starting position: follow
the child on the `sign` side while it exists (`sign = -1` for the least
node, `+1` for the greatest).  `none` iff the subtree is empty. -/
def avlTreeExtremeLoc (sign : Int) (t : AvlTree α) (p : AvlPath α) :
    Option (AvlTree α × AvlPath α) :=
  match t with
  | nil => none
  | node l b o r =>
    if sign < 0 then
      match l with
      | nil => some (node l b o r, p)
      | node _ _ _ _ => avlTreeExtremeLoc sign l (AvlPath.left b o r p)
    else
      match r with
      | nil => some (node l b o r, p)
      | node _ _ _ _ => avlTreeExtremeLoc sign r (AvlPath.right l b o p)

/-- The ascent loop of Go `avlTreeNextOrPrevInOrder`: follow parent
pointers while arriving from the `sign` side; the first ancestor reached
from the other side is the answer (`none` when the root is passed). -/
def avlTreeAscend (sign : Int) (t : AvlTree α) (p : AvlPath α) :
    Option (AvlTree α × AvlPath α) :=
  match p with
  | AvlPath.root => none
  | AvlPath.left b o r p' =>
    if sign < 0 then avlTreeAscend sign (node t b o r) p'
    else some (node t b o r, p')
  | AvlPath.right l b o p' =>
    if sign < 0 then some (node l b o t, p')
    else avlTreeAscend sign (node l b o t) p'

/-- Go `avlTreeNextOrPrevInOrder` (`sign = +1` for next, `-1` for prev):
if the node has a child on the `sign` side, the answer is that child's
extreme on the `-sign` side; otherwise ascend. -/
def avlTreeNextOrPrevInOrder (sign : Int) (t : AvlTree α) (p : AvlPath α) :
    Option (AvlTree α × AvlPath α) :=
  match t with
  | nil => none
  | node l b o r =>
    if sign < 0 then
      match l with
      | node _ _ _ _ => avlTreeExtremeLoc (-sign) l (AvlPath.left b o r p)
      | nil => avlTreeAscend sign (node l b o r) p
    else
      match r with
      | node _ _ _ _ => avlTreeExtremeLoc (-sign) r (AvlPath.right l b o p)
      | nil => avlTreeAscend sign (node l b o r) p

/-- The owner at a position (what the Go wrappers return via `rp.owner`). -/
def locOwner (loc : AvlTree α × AvlPath α) : Option α :=
  ownerOf loc.1

/-- Iterate `avlTreeNextOrPrevInOrder` from a position, collecting owners:
the visit sequence of a `FirstInOrder` + repeated `NextInOrder` loop
(`sign = 1`), or `LastInOrder` + `PrevInOrder` (`sign = -1`). -/
def avlVisit (sign : Int) : Nat → Option (AvlTree α × AvlPath α) → List α
  | 0, _ => []
  | _, none => []
  | fuel + 1, some (t, p) =>
    match t with
    | nil => []
    | node l b o r => o :: avlVisit sign fuel (avlTreeNextOrPrevInOrder sign (node l b o r) p)

/-- Number of nodes. -/
def avlSize (t : AvlTree α) : Nat :=
  match t with
  | nil => 0
  | node l _ _ r => avlSize l + avlSize r + 1

/-- The full forward in-order visit: Go `AvlTreeFirstInOrder` followed by
`AvlTreeNextInOrder` until exhaustion. -/
def avlForwardVisit (t : AvlTree α) : List α :=
  avlVisit 1 (avlSize t) (avlTreeExtremeLoc (-1) t AvlPath.root)

/-- The full backward in-order visit: Go `AvlTreeLastInOrder` followed by
`AvlTreePrevInOrder` until exhaustion. -/
def avlBackwardVisit (t : AvlTree α) : List α :=
  avlVisit (-1) (avlSize t) (avlTreeExtremeLoc 1 t AvlPath.root)

/-! ## Instrumentation: rotation counts of the insertion rebalancer -/

/-- Number of rotation operations (a single or a double rotation each
counting once) performed by `avlHandleSubtreeGrowth` on these arguments:
its two rotation branches perform exactly one each. -/
def growthRotations (parent : AvlTree α) (sign : Int) : Nat :=
  let oldBalanceFactor := avlGetBalanceFactor parent
  if oldBalanceFactor = 0 then 0
  else if oldBalanceFactor + sign = 0 then 0
  else 1

/-- Total number of rotation operations performed during
`avlTreeInsertAux` (the rebalancing ascent of one `AvlTreeInsert`). -/
def insertRotations (cmp : α → α → Int) (t : AvlTree α) (ow : α) : Nat :=
  match t with
  | nil => 0
  | node l b o r =>
    let res := cmp ow o
    if res < 0 then
      match avlTreeInsertAux cmp l ow with
      | (_, _, some _) => 0
      | (l', grew, none) =>
        if grew then insertRotations cmp l ow + growthRotations (node l' b o r) (-1)
        else insertRotations cmp l ow
    else if 0 < res then
      match avlTreeInsertAux cmp r ow with
      | (_, _, some _) => 0
      | (r', grew, none) =>
        if grew then insertRotations cmp r ow + growthRotations (node l b o r') 1
        else insertRotations cmp r ow
    else 0

/-! ## Specification-side definitions -/

/-- Height of a tree (`nil` has height 0). -/
def avlHeight (t : AvlTree α) : Nat :=
  match t with
  | nil => 0
  | node l _ _ r => max (avlHeight l) (avlHeight r) + 1

/-- The AVL balance invariant at every node: the subtree heights differ by
at most one and the stored balance is the biased encoding of
height(right) - height(left), i.e. `avlGetBalanceFactor` returns exactly
that signed difference. -/
def isAvlBal (t : AvlTree α) : Bool :=
  match t with
  | nil => true
  | node l b _ r =>
    isAvlBal l && isAvlBal r &&
    decide (-1 ≤ (avlHeight r : Int) - (avlHeight l : Int)) &&
    decide ((avlHeight r : Int) - (avlHeight l : Int) ≤ 1) &&
    decide (b = (avlHeight r : Int) - (avlHeight l : Int) + 1)

/-- In-order key listing. -/
def inorder (t : AvlTree α) : List α :=
  match t with
  | nil => []
  | node l _ o r => inorder l ++ o :: inorder r

/-- Membership of an owner in the tree. -/
def memT [DecidableEq α] (x : α) (t : AvlTree α) : Bool :=
  match t with
  | nil => false
  | node l _ o r => x = o || memT x l || memT x r

/-- The binary-search-tree ordering invariant with respect to `<`. -/
def isBst [LinearOrder α] (t : AvlTree α) : Bool :=
  match t with
  | nil => true
  | node l _ o r =>
    isBst l && isBst r &&
    (inorder l).all (fun x => decide (x < o)) &&
    (inorder r).all (fun x => decide (o < x))

/-- A comparator that agrees with the linear order of `α` (negative,
zero, positive exactly as the Go contract demands of a strict total
order). -/
def LawfulCmp [LinearOrder α] (cmp : α → α → Int) : Prop :=
  ∀ a b : α, (cmp a b < 0 ↔ a < b) ∧ (cmp a b = 0 ↔ a = b)

/-- The canonical comparator on a linearly ordered type. -/
def stdCmp [LinearOrder α] (a b : α) : Int :=
  if a < b then -1 else if b < a then 1 else 0

/-- One public mutating operation. -/
inductive AvlOp (α : Type) where
  | insert (k : α) : AvlOp α
  | remove (k : α) : AvlOp α
deriving Repr, DecidableEq

/-- Apply a sequence of public operations starting from a tree. -/
def applyOps (cmp : α → α → Int) (ops : List (AvlOp α)) (t : AvlTree α) : AvlTree α :=
  match ops with
  | [] => t
  | AvlOp.insert k :: rest => applyOps cmp rest (AvlTreeInsert cmp t k).1
  | AvlOp.remove k :: rest => applyOps cmp rest (avlTreeRemoveKey cmp t k)

/-! ## Basic computation lemmas -/

@[simp] theorem avlGetChild_nil (s : Int) : avlGetChild (nil : AvlTree α) s = nil := rfl

@[simp] theorem avlGetChild_neg (l : AvlTree α) (b : Int) (o : α) (r : AvlTree α) :
    avlGetChild (node l b o r) (-1) = l := by
  simp [avlGetChild]

@[simp] theorem avlGetChild_pos (l : AvlTree α) (b : Int) (o : α) (r : AvlTree α) :
    avlGetChild (node l b o r) 1 = r := by
  simp [avlGetChild]

@[simp] theorem avlSetChild_neg (l : AvlTree α) (b : Int) (o : α) (r c : AvlTree α) :
    avlSetChild (node l b o r) (-1) c = node c b o r := by
  simp [avlSetChild]

@[simp] theorem avlSetChild_pos (l : AvlTree α) (b : Int) (o : α) (r c : AvlTree α) :
    avlSetChild (node l b o r) 1 c = node l b o c := by
  simp [avlSetChild]

@[simp] theorem balanceOf_node (l : AvlTree α) (b : Int) (o : α) (r : AvlTree α) :
    balanceOf (node l b o r) = b := rfl

@[simp] theorem avlGetBalanceFactor_node (l : AvlTree α) (b : Int) (o : α) (r : AvlTree α) :
    avlGetBalanceFactor (node l b o r) = b - 1 := rfl

@[simp] theorem avlAdjustBalanceFactor_node (l : AvlTree α) (b a : Int) (o : α) (r : AvlTree α) :
    avlAdjustBalanceFactor (node l b o r) a = node l (b + a) o r := rfl

@[simp] theorem avlSetBalanceFactor_node (l : AvlTree α) (b c : Int) (o : α) (r : AvlTree α) :
    avlSetBalanceFactor (node l b o r) c = node l (c + 1) o r := rfl

@[simp] theorem avlHeight_nil : avlHeight (nil : AvlTree α) = 0 := rfl

@[simp] theorem avlHeight_node (l : AvlTree α) (b : Int) (o : α) (r : AvlTree α) :
    avlHeight (node l b o r) = max (avlHeight l) (avlHeight r) + 1 := rfl

@[simp] theorem inorder_nil : inorder (nil : AvlTree α) = [] := rfl

@[simp] theorem inorder_node (l : AvlTree α) (b : Int) (o : α) (r : AvlTree α) :
    inorder (node l b o r) = inorder l ++ o :: inorder r := rfl

@[simp] theorem isAvlBal_nil : isAvlBal (nil : AvlTree α) = true := rfl

theorem isAvlBal_node {l : AvlTree α} {b : Int} {o : α} {r : AvlTree α} :
    isAvlBal (node l b o r) = true ↔
      isAvlBal l = true ∧ isAvlBal r = true ∧
      -1 ≤ (avlHeight r : Int) - (avlHeight l : Int) ∧
      (avlHeight r : Int) - (avlHeight l : Int) ≤ 1 ∧
      b = (avlHeight r : Int) - (avlHeight l : Int) + 1 := by
  simp [isAvlBal, and_assoc]

/-! ## Evaluation lemmas for the rebalancing handlers -/

theorem growth_eval_oldzero {l r : AvlTree α} {b : Int} {o : α} (s : Int) (h : b - 1 = 0) :
    avlHandleSubtreeGrowth (node l b o r) s = (node l (b + s) o r, false) := by
  simp only [avlHandleSubtreeGrowth, avlGetBalanceFactor_node, avlAdjustBalanceFactor_node]
  rw [if_pos h]

theorem growth_eval_newzero {l r : AvlTree α} {b : Int} {o : α} {s : Int}
    (h1 : b - 1 ≠ 0) (h2 : b - 1 + s = 0) :
    avlHandleSubtreeGrowth (node l b o r) s = (node l (b + s) o r, true) := by
  simp only [avlHandleSubtreeGrowth, avlGetBalanceFactor_node, avlAdjustBalanceFactor_node]
  rw [if_neg h1, if_pos h2]

theorem growth_eval_single_left {ll lr r : AvlTree α} {lb b : Int} {lo o : α}
    (h1 : b - 1 ≠ 0) (h2 : b - 1 + -1 ≠ 0) (h3 : lb - 1 < 0) :
    avlHandleSubtreeGrowth (node (node ll lb lo lr) b o r) (-1)
      = (node ll (lb + 1) lo (node lr (b + 1) o r), true) := by
  simp only [avlHandleSubtreeGrowth, avlGetBalanceFactor_node, avlAdjustBalanceFactor_node,
    avlGetChild_neg, avlRotate, avlSetChild_neg, avlSetChild_pos]
  rw [if_neg h1, if_neg h2, if_pos (by omega : (0:Int) < -1 * (lb - 1))]
  norm_num

theorem growth_eval_single_right {l rl rr : AvlTree α} {rb b : Int} {ro o : α}
    (h1 : b - 1 ≠ 0) (h2 : b - 1 + 1 ≠ 0) (h3 : 0 < rb - 1) :
    avlHandleSubtreeGrowth (node l b o (node rl rb ro rr)) 1
      = (node (node l (b + -1) o rl) (rb + -1) ro rr, true) := by
  simp only [avlHandleSubtreeGrowth, avlGetBalanceFactor_node, avlAdjustBalanceFactor_node,
    avlGetChild_pos, avlRotate, avlSetChild_neg, avlSetChild_pos]
  rw [if_neg h1, if_neg h2, if_pos (by omega : (0:Int) < 1 * (rb - 1))]
  norm_num

theorem growth_eval_double_left {ll f g r : AvlTree α} {lb eb b : Int} {lo eo o : α}
    (h1 : b - 1 ≠ 0) (h2 : b - 1 + -1 ≠ 0) (h3 : ¬ lb - 1 < 0) :
    avlHandleSubtreeGrowth (node (node ll lb lo (node f eb eo g)) b o r) (-1)
      = (node (node ll ((if eb - 1 ≤ 0 then 0 else -(eb - 1)) + 1) lo f) 1 eo
          (node g ((if 0 ≤ eb - 1 then 0 else -(eb - 1)) + 1) o r), true) := by
  simp only [avlHandleSubtreeGrowth, avlGetBalanceFactor_node, avlGetChild_neg]
  rw [if_neg h1, if_neg h2, if_neg (by omega : ¬ (0:Int) < -1 * (lb - 1))]
  simp only [avlDoDoubleRotate, avlGetChild_pos, avlGetChild_neg, avlGetBalanceFactor_node,
    avlSetChild_neg, avlSetChild_pos, avlSetBalanceFactor_node]
  norm_num
  split_ifs <;> simp_all

theorem growth_eval_double_right {l f g rr : AvlTree α} {rb eb b : Int} {ro eo o : α}
    (h1 : b - 1 ≠ 0) (h2 : b - 1 + 1 ≠ 0) (h3 : ¬ 0 < rb - 1) :
    avlHandleSubtreeGrowth (node l b o (node (node f eb eo g) rb ro rr)) 1
      = (node (node l ((if eb - 1 ≤ 0 then 0 else -(eb - 1)) + 1) o f) 1 eo
          (node g ((if 0 ≤ eb - 1 then 0 else -(eb - 1)) + 1) ro rr), true) := by
  simp only [avlHandleSubtreeGrowth, avlGetBalanceFactor_node, avlGetChild_pos]
  rw [if_neg h1, if_neg h2, if_neg (by omega : ¬ (0:Int) < 1 * (rb - 1))]
  simp only [avlDoDoubleRotate, avlGetChild_pos, avlGetChild_neg, avlGetBalanceFactor_node,
    avlSetChild_neg, avlSetChild_pos, avlSetBalanceFactor_node]
  norm_num
  split_ifs <;> simp_all

theorem shrink_eval_oldzero {l r : AvlTree α} {b : Int} {o : α} (s : Int) (h : b - 1 = 0) :
    avlHandleSubtreeShrink (node l b o r) s = (node l (b + s) o r, false) := by
  simp only [avlHandleSubtreeShrink, avlGetBalanceFactor_node, avlAdjustBalanceFactor_node]
  rw [if_pos h]

theorem shrink_eval_newzero {l r : AvlTree α} {b : Int} {o : α} {s : Int}
    (h1 : b - 1 ≠ 0) (h2 : b - 1 + s = 0) :
    avlHandleSubtreeShrink (node l b o r) s = (node l (b + s) o r, true) := by
  simp only [avlHandleSubtreeShrink, avlGetBalanceFactor_node, avlAdjustBalanceFactor_node]
  rw [if_neg h1, if_pos h2]

theorem shrink_eval_singlestop_left {l rl rr : AvlTree α} {rb b : Int} {ro o : α}
    (h1 : b - 1 ≠ 0) (h2 : b - 1 + 1 ≠ 0) (h3 : rb - 1 = 0) :
    avlHandleSubtreeShrink (node l b o (node rl rb ro rr)) 1
      = (node (node l b o rl) (rb + -1) ro rr, false) := by
  simp only [avlHandleSubtreeShrink, avlGetBalanceFactor_node, avlAdjustBalanceFactor_node,
    avlGetChild_pos, avlRotate, avlSetChild_neg, avlSetChild_pos]
  rw [if_neg h1, if_neg h2, if_pos (by omega : (0:Int) ≤ 1 * (rb - 1))]
  norm_num [h3]

theorem shrink_eval_single_left {l rl rr : AvlTree α} {rb b : Int} {ro o : α}
    (h1 : b - 1 ≠ 0) (h2 : b - 1 + 1 ≠ 0) (h3 : 0 < rb - 1) :
    avlHandleSubtreeShrink (node l b o (node rl rb ro rr)) 1
      = (node (node l (b + -1) o rl) (rb + -1) ro rr, true) := by
  simp only [avlHandleSubtreeShrink, avlGetBalanceFactor_node, avlAdjustBalanceFactor_node,
    avlGetChild_pos, avlRotate, avlSetChild_neg, avlSetChild_pos]
  rw [if_neg h1, if_neg h2, if_pos (by omega : (0:Int) ≤ 1 * (rb - 1))]
  norm_num
  intro h
  omega

theorem shrink_eval_double_left {l f g rr : AvlTree α} {rb eb b : Int} {ro eo o : α}
    (h1 : b - 1 ≠ 0) (h2 : b - 1 + 1 ≠ 0) (h3 : rb - 1 < 0) :
    avlHandleSubtreeShrink (node l b o (node (node f eb eo g) rb ro rr)) 1
      = (node (node l ((if eb - 1 ≤ 0 then 0 else -(eb - 1)) + 1) o f) 1 eo
          (node g ((if 0 ≤ eb - 1 then 0 else -(eb - 1)) + 1) ro rr), true) := by
  simp only [avlHandleSubtreeShrink, avlGetBalanceFactor_node, avlGetChild_pos]
  rw [if_neg h1, if_neg h2, if_neg (by omega : ¬ (0:Int) ≤ 1 * (rb - 1))]
  simp only [avlDoDoubleRotate, avlGetChild_pos, avlGetChild_neg, avlGetBalanceFactor_node,
    avlSetChild_neg, avlSetChild_pos, avlSetBalanceFactor_node]
  norm_num
  split_ifs <;> simp_all

theorem shrink_eval_singlestop_right {ll lr r : AvlTree α} {lb b : Int} {lo o : α}
    (h1 : b - 1 ≠ 0) (h2 : b - 1 + -1 ≠ 0) (h3 : lb - 1 = 0) :
    avlHandleSubtreeShrink (node (node ll lb lo lr) b o r) (-1)
      = (node ll (lb + 1) lo (node lr b o r), false) := by
  simp only [avlHandleSubtreeShrink, avlGetBalanceFactor_node, avlAdjustBalanceFactor_node,
    avlGetChild_neg, avlRotate, avlSetChild_neg, avlSetChild_pos]
  rw [if_neg h1, if_neg h2, if_pos (by omega : (0:Int) ≤ -1 * (lb - 1))]
  norm_num [h3]

theorem shrink_eval_single_right {ll lr r : AvlTree α} {lb b : Int} {lo o : α}
    (h1 : b - 1 ≠ 0) (h2 : b - 1 + -1 ≠ 0) (h3 : lb - 1 < 0) :
    avlHandleSubtreeShrink (node (node ll lb lo lr) b o r) (-1)
      = (node ll (lb + 1) lo (node lr (b + 1) o r), true) := by
  simp only [avlHandleSubtreeShrink, avlGetBalanceFactor_node, avlAdjustBalanceFactor_node,
    avlGetChild_neg, avlRotate, avlSetChild_neg, avlSetChild_pos]
  rw [if_neg h1, if_neg h2, if_pos (by omega : (0:Int) ≤ -1 * (lb - 1))]
  norm_num
  intro h
  omega

theorem shrink_eval_double_right {ll f g r : AvlTree α} {lb eb b : Int} {lo eo o : α}
    (h1 : b - 1 ≠ 0) (h2 : b - 1 + -1 ≠ 0) (h3 : 0 < lb - 1) :
    avlHandleSubtreeShrink (node (node ll lb lo (node f eb eo g)) b o r) (-1)
      = (node (node ll ((if eb - 1 ≤ 0 then 0 else -(eb - 1)) + 1) lo f) 1 eo
          (node g ((if 0 ≤ eb - 1 then 0 else -(eb - 1)) + 1) o r), true) := by
  simp only [avlHandleSubtreeShrink, avlGetBalanceFactor_node, avlGetChild_neg]
  rw [if_neg h1, if_neg h2, if_neg (by omega : ¬ (0:Int) ≤ -1 * (lb - 1))]
  simp only [avlDoDoubleRotate, avlGetChild_pos, avlGetChild_neg, avlGetBalanceFactor_node,
    avlSetChild_neg, avlSetChild_pos, avlSetBalanceFactor_node]
  norm_num
  split_ifs <;> simp_all

/-! ## Correctness of the growth handler

The hypotheses say: the subtree on one side of a balanced node grew by
one (from height of `l` to that of `l'`), the stored balance still
reflects the old heights, and a grown subtree of height at least 2 leans
(its balance factor is nonzero) — which holds on every insertion path.
The conclusions: the result is a balanced AVL tree with the same in-order
list; if the handler said "done" the subtree has its pre-insertion
height, otherwise it grew by one and leans. -/

theorem growth_spec_left {l l' r : AvlTree α} {b : Int} {o : α}
    (hl' : isAvlBal l' = true) (hr : isAvlBal r = true)
    (hh : avlHeight l' = avlHeight l + 1)
    (hb : b = (avlHeight r : Int) - (avlHeight l : Int) + 1)
    (hd1 : -1 ≤ (avlHeight r : Int) - (avlHeight l : Int))
    (hd2 : (avlHeight r : Int) - (avlHeight l : Int) ≤ 1)
    (hbf : avlGetBalanceFactor l' ≠ 0 ∨ avlHeight l' = 1) :
    isAvlBal (avlHandleSubtreeGrowth (node l' b o r) (-1)).1 = true ∧
    inorder (avlHandleSubtreeGrowth (node l' b o r) (-1)).1 = inorder l' ++ o :: inorder r ∧
    ((avlHandleSubtreeGrowth (node l' b o r) (-1)).2 = true →
      avlHeight (avlHandleSubtreeGrowth (node l' b o r) (-1)).1
        = max (avlHeight l) (avlHeight r) + 1) ∧
    ((avlHandleSubtreeGrowth (node l' b o r) (-1)).2 = false →
      avlHeight (avlHandleSubtreeGrowth (node l' b o r) (-1)).1
        = max (avlHeight l) (avlHeight r) + 2 ∧
      avlGetBalanceFactor (avlHandleSubtreeGrowth (node l' b o r) (-1)).1 ≠ 0) := by
  by_cases hc1 : b - 1 = 0
  · rw [growth_eval_oldzero (-1) hc1]
    refine ⟨?_, by simp, by simp, ?_⟩
    · rw [isAvlBal_node]
      exact ⟨hl', hr, by omega, by omega, by omega⟩
    · intro _
      constructor
      · dsimp only
        simp only [avlHeight_node]
        omega
      · dsimp only
        simp only [avlGetBalanceFactor_node]
        omega
  · by_cases hc2 : b - 1 + -1 = 0
    · rw [growth_eval_newzero hc1 hc2]
      refine ⟨?_, by simp, ?_, by simp⟩
      · rw [isAvlBal_node]
        exact ⟨hl', hr, by omega, by omega, by omega⟩
      · intro _
        dsimp only
        simp only [avlHeight_node]
        omega
    · have hlbne : avlGetBalanceFactor l' ≠ 0 := by
        rcases hbf with h | h
        · exact h
        · exfalso
          omega
      cases l' with
      | nil =>
        exfalso
        simp only [avlHeight_nil] at hh
        omega
      | node ll lb lo lr =>
      obtain ⟨hll, hlr, hlb1, hlb2, hlbeq⟩ := isAvlBal_node.mp hl'
      simp only [avlHeight_node] at hh
      simp only [avlGetBalanceFactor_node] at hlbne
      by_cases hc3 : lb - 1 < 0
      · rw [growth_eval_single_left hc1 hc2 hc3]
        refine ⟨?_, by simp, ?_, by simp⟩
        · rw [isAvlBal_node]
          refine ⟨hll, ?_, ?_, ?_, ?_⟩
          · rw [isAvlBal_node]
            exact ⟨hlr, hr, by omega, by omega, by omega⟩
          all_goals simp only [avlHeight_node]; omega
        · intro _
          dsimp only
          simp only [avlHeight_node]
          omega
      · have hlb3 : 0 < lb - 1 := by omega
        cases lr with
        | nil =>
          exfalso
          simp only [avlHeight_nil] at hlbeq hlb2 hh
          omega
        | node f eb eo g =>
        obtain ⟨hf, hg, heb1, heb2, hebeq⟩ := isAvlBal_node.mp hlr
        simp only [avlHeight_node] at hlbeq hlb1 hlb2 hh
        rw [growth_eval_double_left hc1 hc2 hc3]
        refine ⟨?_, by simp, ?_, by simp⟩
        · rw [isAvlBal_node]
          refine ⟨?_, ?_, ?_, ?_, ?_⟩
          · rw [isAvlBal_node]
            refine ⟨hll, hf, by omega, by omega, ?_⟩
            split_ifs <;> omega
          · rw [isAvlBal_node]
            refine ⟨hg, hr, by omega, by omega, ?_⟩
            split_ifs <;> omega
          all_goals simp only [avlHeight_node]; omega
        · intro _
          dsimp only
          simp only [avlHeight_node]
          omega

theorem growth_spec_right {l r r' : AvlTree α} {b : Int} {o : α}
    (hl : isAvlBal l = true) (hr' : isAvlBal r' = true)
    (hh : avlHeight r' = avlHeight r + 1)
    (hb : b = (avlHeight r : Int) - (avlHeight l : Int) + 1)
    (hd1 : -1 ≤ (avlHeight r : Int) - (avlHeight l : Int))
    (hd2 : (avlHeight r : Int) - (avlHeight l : Int) ≤ 1)
    (hbf : avlGetBalanceFactor r' ≠ 0 ∨ avlHeight r' = 1) :
    isAvlBal (avlHandleSubtreeGrowth (node l b o r') 1).1 = true ∧
    inorder (avlHandleSubtreeGrowth (node l b o r') 1).1 = inorder l ++ o :: inorder r' ∧
    ((avlHandleSubtreeGrowth (node l b o r') 1).2 = true →
      avlHeight (avlHandleSubtreeGrowth (node l b o r') 1).1
        = max (avlHeight l) (avlHeight r) + 1) ∧
    ((avlHandleSubtreeGrowth (node l b o r') 1).2 = false →
      avlHeight (avlHandleSubtreeGrowth (node l b o r') 1).1
        = max (avlHeight l) (avlHeight r) + 2 ∧
      avlGetBalanceFactor (avlHandleSubtreeGrowth (node l b o r') 1).1 ≠ 0) := by
  by_cases hc1 : b - 1 = 0
  · rw [growth_eval_oldzero 1 hc1]
    refine ⟨?_, by simp, by simp, ?_⟩
    · rw [isAvlBal_node]
      exact ⟨hl, hr', by omega, by omega, by omega⟩
    · intro _
      constructor
      · dsimp only
        simp only [avlHeight_node]
        omega
      · dsimp only
        simp only [avlGetBalanceFactor_node]
        omega
  · by_cases hc2 : b - 1 + 1 = 0
    · rw [growth_eval_newzero hc1 hc2]
      refine ⟨?_, by simp, ?_, by simp⟩
      · rw [isAvlBal_node]
        exact ⟨hl, hr', by omega, by omega, by omega⟩
      · intro _
        dsimp only
        simp only [avlHeight_node]
        omega
    · have hrbne : avlGetBalanceFactor r' ≠ 0 := by
        rcases hbf with h | h
        · exact h
        · exfalso
          omega
      cases r' with
      | nil =>
        exfalso
        simp only [avlHeight_nil] at hh
        omega
      | node rl rb ro rr =>
      obtain ⟨hrl, hrr, hrb1, hrb2, hrbeq⟩ := isAvlBal_node.mp hr'
      simp only [avlHeight_node] at hh
      simp only [avlGetBalanceFactor_node] at hrbne
      by_cases hc3 : 0 < rb - 1
      · rw [growth_eval_single_right hc1 hc2 hc3]
        refine ⟨?_, by simp, ?_, by simp⟩
        · rw [isAvlBal_node]
          refine ⟨?_, hrr, ?_, ?_, ?_⟩
          · rw [isAvlBal_node]
            exact ⟨hl, hrl, by omega, by omega, by omega⟩
          all_goals simp only [avlHeight_node]; omega
        · intro _
          dsimp only
          simp only [avlHeight_node]
          omega
      · have hrb3 : rb - 1 < 0 := by omega
        cases rl with
        | nil =>
          exfalso
          simp only [avlHeight_nil] at hrbeq hrb1 hh
          omega
        | node f eb eo g =>
        obtain ⟨hf, hg, heb1, heb2, hebeq⟩ := isAvlBal_node.mp hrl
        simp only [avlHeight_node] at hrbeq hrb1 hrb2 hh
        have hc3' : ¬ 0 < rb - 1 := by omega
        rw [growth_eval_double_right hc1 hc2 hc3']
        refine ⟨?_, by simp, ?_, by simp⟩
        · rw [isAvlBal_node]
          refine ⟨?_, ?_, ?_, ?_, ?_⟩
          · rw [isAvlBal_node]
            refine ⟨hl, hf, by omega, by omega, ?_⟩
            split_ifs <;> omega
          · rw [isAvlBal_node]
            refine ⟨hg, hrr, by omega, by omega, ?_⟩
            split_ifs <;> omega
          all_goals simp only [avlHeight_node]; omega
        · intro _
          dsimp only
          simp only [avlHeight_node]
          omega

/-! ## Correctness of the shrink handler

The hypotheses say: the subtree on one side of a balanced node shrank by
one (from the height of `l` to that of `l'`) and the stored balance still
reflects the old heights.  The conclusions: the result is a balanced AVL
tree with the same in-order list; the returned flag says whether the
subtree height shrank by one (continue the ascent) or stayed (done). -/

theorem shrink_spec_left {l l' r : AvlTree α} {b : Int} {o : α}
    (hl' : isAvlBal l' = true) (hr : isAvlBal r = true)
    (hh : avlHeight l = avlHeight l' + 1)
    (hb : b = (avlHeight r : Int) - (avlHeight l : Int) + 1)
    (hd1 : -1 ≤ (avlHeight r : Int) - (avlHeight l : Int))
    (hd2 : (avlHeight r : Int) - (avlHeight l : Int) ≤ 1) :
    isAvlBal (avlHandleSubtreeShrink (node l' b o r) 1).1 = true ∧
    inorder (avlHandleSubtreeShrink (node l' b o r) 1).1 = inorder l' ++ o :: inorder r ∧
    ((avlHandleSubtreeShrink (node l' b o r) 1).2 = true →
      avlHeight (avlHandleSubtreeShrink (node l' b o r) 1).1
        = max (avlHeight l) (avlHeight r)) ∧
    ((avlHandleSubtreeShrink (node l' b o r) 1).2 = false →
      avlHeight (avlHandleSubtreeShrink (node l' b o r) 1).1
        = max (avlHeight l) (avlHeight r) + 1) := by
  by_cases hc1 : b - 1 = 0
  · rw [shrink_eval_oldzero 1 hc1]
    refine ⟨?_, by simp, by simp, ?_⟩
    · rw [isAvlBal_node]
      exact ⟨hl', hr, by omega, by omega, by omega⟩
    · intro _
      dsimp only
      simp only [avlHeight_node]
      omega
  · by_cases hc2 : b - 1 + 1 = 0
    · rw [shrink_eval_newzero hc1 hc2]
      refine ⟨?_, by simp, ?_, by simp⟩
      · rw [isAvlBal_node]
        exact ⟨hl', hr, by omega, by omega, by omega⟩
      · intro _
        dsimp only
        simp only [avlHeight_node]
        omega
    · cases r with
      | nil =>
        exfalso
        simp only [avlHeight_nil] at hb hd1 hd2
        omega
      | node rl rb ro rr =>
      obtain ⟨hrl, hrr, hrb1, hrb2, hrbeq⟩ := isAvlBal_node.mp hr
      simp only [avlHeight_node] at hb hd1 hd2
      by_cases hc3 : rb - 1 = 0
      · rw [shrink_eval_singlestop_left hc1 hc2 hc3]
        refine ⟨?_, by simp, by simp, ?_⟩
        · rw [isAvlBal_node]
          refine ⟨?_, hrr, ?_, ?_, ?_⟩
          · rw [isAvlBal_node]
            exact ⟨hl', hrl, by omega, by omega, by omega⟩
          all_goals simp only [avlHeight_node]; omega
        · intro _
          dsimp only
          simp only [avlHeight_node]
          omega
      · by_cases hc4 : 0 < rb - 1
        · rw [shrink_eval_single_left hc1 hc2 hc4]
          refine ⟨?_, by simp, ?_, by simp⟩
          · rw [isAvlBal_node]
            refine ⟨?_, hrr, ?_, ?_, ?_⟩
            · rw [isAvlBal_node]
              exact ⟨hl', hrl, by omega, by omega, by omega⟩
            all_goals simp only [avlHeight_node]; omega
          · intro _
            dsimp only
            simp only [avlHeight_node]
            omega
        · have hc5 : rb - 1 < 0 := by omega
          cases rl with
          | nil =>
            exfalso
            simp only [avlHeight_nil] at hrbeq hrb1 hb
            omega
          | node f eb eo g =>
          obtain ⟨hf, hg, heb1, heb2, hebeq⟩ := isAvlBal_node.mp hrl
          simp only [avlHeight_node] at hrbeq hrb1 hrb2 hb hd1 hd2
          rw [shrink_eval_double_left hc1 hc2 hc5]
          refine ⟨?_, by simp, ?_, by simp⟩
          · rw [isAvlBal_node]
            refine ⟨?_, ?_, ?_, ?_, ?_⟩
            · rw [isAvlBal_node]
              refine ⟨hl', hf, by omega, by omega, ?_⟩
              split_ifs <;> omega
            · rw [isAvlBal_node]
              refine ⟨hg, hrr, by omega, by omega, ?_⟩
              split_ifs <;> omega
            all_goals simp only [avlHeight_node]; omega
          · intro _
            dsimp only
            simp only [avlHeight_node]
            omega

theorem shrink_spec_right {l r r' : AvlTree α} {b : Int} {o : α}
    (hl : isAvlBal l = true) (hr' : isAvlBal r' = true)
    (hh : avlHeight r = avlHeight r' + 1)
    (hb : b = (avlHeight r : Int) - (avlHeight l : Int) + 1)
    (hd1 : -1 ≤ (avlHeight r : Int) - (avlHeight l : Int))
    (hd2 : (avlHeight r : Int) - (avlHeight l : Int) ≤ 1) :
    isAvlBal (avlHandleSubtreeShrink (node l b o r') (-1)).1 = true ∧
    inorder (avlHandleSubtreeShrink (node l b o r') (-1)).1 = inorder l ++ o :: inorder r' ∧
    ((avlHandleSubtreeShrink (node l b o r') (-1)).2 = true →
      avlHeight (avlHandleSubtreeShrink (node l b o r') (-1)).1
        = max (avlHeight l) (avlHeight r)) ∧
    ((avlHandleSubtreeShrink (node l b o r') (-1)).2 = false →
      avlHeight (avlHandleSubtreeShrink (node l b o r') (-1)).1
        = max (avlHeight l) (avlHeight r) + 1) := by
  by_cases hc1 : b - 1 = 0
  · rw [shrink_eval_oldzero (-1) hc1]
    refine ⟨?_, by simp, by simp, ?_⟩
    · rw [isAvlBal_node]
      exact ⟨hl, hr', by omega, by omega, by omega⟩
    · intro _
      dsimp only
      simp only [avlHeight_node]
      omega
  · by_cases hc2 : b - 1 + -1 = 0
    · rw [shrink_eval_newzero hc1 hc2]
      refine ⟨?_, by simp, ?_, by simp⟩
      · rw [isAvlBal_node]
        exact ⟨hl, hr', by omega, by omega, by omega⟩
      · intro _
        dsimp only
        simp only [avlHeight_node]
        omega
    · cases l with
      | nil =>
        exfalso
        simp only [avlHeight_nil] at hb hd1 hd2
        omega
      | node ll lb lo lr =>
      obtain ⟨hll, hlr, hlb1, hlb2, hlbeq⟩ := isAvlBal_node.mp hl
      simp only [avlHeight_node] at hb hd1 hd2
      by_cases hc3 : lb - 1 = 0
      · rw [shrink_eval_singlestop_right hc1 hc2 hc3]
        refine ⟨?_, by simp, by simp, ?_⟩
        · rw [isAvlBal_node]
          refine ⟨hll, ?_, ?_, ?_, ?_⟩
          · rw [isAvlBal_node]
            exact ⟨hlr, hr', by omega, by omega, by omega⟩
          all_goals simp only [avlHeight_node]; omega
        · intro _
          dsimp only
          simp only [avlHeight_node]
          omega
      · by_cases hc4 : lb - 1 < 0
        · rw [shrink_eval_single_right hc1 hc2 hc4]
          refine ⟨?_, by simp, ?_, by simp⟩
          · rw [isAvlBal_node]
            refine ⟨hll, ?_, ?_, ?_, ?_⟩
            · rw [isAvlBal_node]
              exact ⟨hlr, hr', by omega, by omega, by omega⟩
            all_goals simp only [avlHeight_node]; omega
          · intro _
            dsimp only
            simp only [avlHeight_node]
            omega
        · have hc5 : 0 < lb - 1 := by omega
          cases lr with
          | nil =>
            exfalso
            simp only [avlHeight_nil] at hlbeq hlb2 hb
            omega
          | node f eb eo g =>
          obtain ⟨hf, hg, heb1, heb2, hebeq⟩ := isAvlBal_node.mp hlr
          simp only [avlHeight_node] at hlbeq hlb1 hlb2 hb hd1 hd2
          rw [shrink_eval_double_right hc1 hc2 hc5]
          refine ⟨?_, by simp, ?_, by simp⟩
          · rw [isAvlBal_node]
            refine ⟨?_, ?_, ?_, ?_, ?_⟩
            · rw [isAvlBal_node]
              refine ⟨hll, hf, by omega, by omega, ?_⟩
              split_ifs <;> omega
            · rw [isAvlBal_node]
              refine ⟨hg, hr', by omega, by omega, ?_⟩
              split_ifs <;> omega
            all_goals simp only [avlHeight_node]; omega
          · intro _
            dsimp only
            simp only [avlHeight_node]
            omega

/-! ## Bridging lemmas: in-order lists, membership, BST -/

theorem pairwise_node_iff [LinearOrder α] {l r : List α} {o : α} :
    (l ++ o :: r).Pairwise (· < ·) ↔
      l.Pairwise (· < ·) ∧ r.Pairwise (· < ·) ∧
      (∀ x ∈ l, x < o) ∧ (∀ y ∈ r, o < y) := by
  simp only [List.pairwise_append, List.pairwise_cons, List.mem_cons]
  constructor
  · rintro ⟨hl, ⟨ho, hr⟩, hcross⟩
    exact ⟨hl, hr, fun x hx => hcross x hx o (Or.inl rfl), ho⟩
  · rintro ⟨hl, hr, hlo, hor⟩
    refine ⟨hl, ⟨hor, hr⟩, ?_⟩
    rintro a ha b (rfl | hb)
    · exact hlo a ha
    · exact lt_trans (hlo a ha) (hor b hb)

theorem mem_inorder_iff_memT [LinearOrder α] {x : α} {t : AvlTree α} :
    x ∈ inorder t ↔ memT x t = true := by
  induction t with
  | nil => simp [memT]
  | node l b o r ihl ihr =>
    simp [memT, ihl, ihr]
    tauto

theorem isBst_iff_pairwise [LinearOrder α] {t : AvlTree α} :
    isBst t = true ↔ (inorder t).Pairwise (· < ·) := by
  induction t with
  | nil => simp [isBst]
  | node l b o r ihl ihr =>
    rw [inorder_node, pairwise_node_iff]
    simp only [isBst, Bool.and_eq_true, List.all_eq_true, decide_eq_true_eq]
    rw [ihl, ihr]
    tauto

theorem length_inorder (t : AvlTree α) : (inorder t).length = avlSize t := by
  induction t with
  | nil => rfl
  | node l b o r ihl ihr => simp [avlSize, ihl, ihr]; omega

theorem lawfulCmp_gt [LinearOrder α] {cmp : α → α → Int} (hc : LawfulCmp cmp)
    {a b : α} : 0 < cmp a b ↔ b < a := by
  rcases lt_trichotomy a b with h | h | h
  · constructor
    · intro hgt
      exact absurd ((hc a b).1.mpr h) (by omega)
    · intro hba
      exact absurd (lt_trans h hba) (lt_irrefl _)
  · subst h
    constructor
    · intro hgt
      exact absurd ((hc a a).2.mpr rfl) (by omega)
    · intro haa
      exact absurd haa (lt_irrefl _)
  · constructor
    · intro _
      exact h
    · intro _
      have h1 : ¬ cmp a b < 0 := fun hcon => absurd ((hc a b).1.mp hcon) (asymm h)
      have h2 : ¬ cmp a b = 0 := fun hcon => absurd ((hc a b).2.mp hcon) (ne_of_gt h)
      omega

theorem lawfulCmp_stdCmp [LinearOrder α] : LawfulCmp (stdCmp : α → α → Int) := by
  intro a b
  unfold stdCmp
  rcases lt_trichotomy a b with h | h | h
  · rw [if_pos h]
    refine ⟨⟨fun _ => h, fun _ => by norm_num⟩,
      ⟨fun hcon => absurd hcon (by norm_num), fun hcon => absurd hcon (ne_of_lt h)⟩⟩
  · subst h
    simp [lt_irrefl]
  · rw [if_neg (asymm h), if_pos h]
    constructor
    · constructor <;> intro hcon
      · omega
      · exact absurd hcon (asymm h)
    · constructor <;> intro hcon
      · omega
      · exact absurd hcon (ne_of_gt h)

/-! ## Insertion: the full specification of the descent and rebalancing ascent -/

set_option maxHeartbeats 2000000 in
theorem insert_aux_spec [LinearOrder α] {cmp : α → α → Int} (hc : LawfulCmp cmp)
    (k : α) (t : AvlTree α) (hbal : isAvlBal t = true)
    (hbst : (inorder t).Pairwise (· < ·)) :
    ((avlTreeInsertAux cmp t k).2.2 = none →
      isAvlBal (avlTreeInsertAux cmp t k).1 = true ∧
      (inorder (avlTreeInsertAux cmp t k).1).Pairwise (· < ·) ∧
      (∀ x, x ∈ inorder (avlTreeInsertAux cmp t k).1 ↔ x ∈ inorder t ∨ x = k) ∧
      (inorder (avlTreeInsertAux cmp t k).1).length = (inorder t).length + 1 ∧
      k ∉ inorder t ∧
      ((avlTreeInsertAux cmp t k).2.1 = true →
        avlHeight (avlTreeInsertAux cmp t k).1 = avlHeight t + 1 ∧
        (avlGetBalanceFactor (avlTreeInsertAux cmp t k).1 ≠ 0 ∨
          avlHeight (avlTreeInsertAux cmp t k).1 = 1)) ∧
      ((avlTreeInsertAux cmp t k).2.1 = false →
        avlHeight (avlTreeInsertAux cmp t k).1 = avlHeight t)) ∧
    (∀ d, (avlTreeInsertAux cmp t k).2.2 = some d →
      (avlTreeInsertAux cmp t k).1 = t ∧ (avlTreeInsertAux cmp t k).2.1 = false ∧
      d = k ∧ k ∈ inorder t) := by
  induction t with
  | nil =>
    constructor
    · intro _
      refine ⟨by simp [avlTreeInsertAux, isAvlBal], by simp [avlTreeInsertAux, inorder],
        ?_, by simp [avlTreeInsertAux, inorder], by simp [inorder],
        ?_, by simp [avlTreeInsertAux]⟩
      · intro x
        simp [avlTreeInsertAux, inorder]
      · intro _
        constructor
        · simp [avlTreeInsertAux, avlHeight]
        · right
          simp [avlTreeInsertAux, avlHeight]
    · intro d hd
      simp [avlTreeInsertAux] at hd
  | node l b o r ihl ihr =>
    obtain ⟨hbl, hbr, hd1, hd2, hbeq⟩ := isAvlBal_node.mp hbal
    rw [inorder_node, pairwise_node_iff] at hbst
    obtain ⟨hpl, hpr, hlo, hor⟩ := hbst
    rcases lt_trichotomy k o with hko | hko | hko
    · have hres : cmp k o < 0 := (hc k o).1.mpr hko
      rcases hrec : avlTreeInsertAux cmp l k with ⟨l', grew, dup⟩
      cases dup with
      | some d =>
        obtain ⟨-, -, hdk, hkin⟩ := (ihl hbl hpl).2 d (by rw [hrec])
        clear ihl ihr
        have hstep : avlTreeInsertAux cmp (node l b o r) k = (node l b o r, false, some d) := by
          simp only [avlTreeInsertAux]
          rw [if_pos hres, hrec]
        rw [hstep]
        clear hstep
        constructor
        · intro hcon
          simp at hcon
        · intro d' hd'
          have hdd : d = d' := by injection hd'
          subst hdd
          exact ⟨rfl, rfl, hdk, by simp only [inorder_node, List.mem_append]; exact Or.inl hkin⟩
      | none =>
        obtain ⟨hAvl, hPw, hMem, hLen, hNotIn, hGrew, hNoGrew⟩ := (ihl hbl hpl).1 (by rw [hrec])
        clear ihl ihr hbal
        rw [hrec] at hAvl hPw hMem hLen hGrew hNoGrew
        dsimp only at hAvl hPw hMem hLen hGrew hNoGrew
        have hnotmem : k ∉ inorder (node l b o r) := by
          simp only [inorder_node, List.mem_append, List.mem_cons]
          push_neg
          exact ⟨hNotIn, ne_of_lt hko, fun hkr => absurd (hor k hkr) (asymm hko)⟩
        cases grew with
        | false =>
          have hstep : avlTreeInsertAux cmp (node l b o r) k = (node l' b o r, false, none) := by
            simp only [avlTreeInsertAux]
            rw [if_pos hres, hrec]
            rfl
          rw [hstep]
          clear hstep
          have hhe : avlHeight l' = avlHeight l := hNoGrew rfl
          constructor
          · intro _
            refine ⟨?_, ?_, ?_, ?_, hnotmem, by simp, ?_⟩
            · rw [isAvlBal_node]
              exact ⟨hAvl, hbr, by omega, by omega, by omega⟩
            · dsimp only
              rw [inorder_node, pairwise_node_iff]
              refine ⟨hPw, hpr, ?_, hor⟩
              intro x hx
              rcases (hMem x).1 hx with h | h
              · exact hlo x h
              · subst h
                exact hko
            · intro x
              dsimp only
              simp only [inorder_node, List.mem_append, List.mem_cons]
              have hmx := hMem x
              constructor
              · rintro (h | h)
                · rcases hmx.1 h with h' | h'
                  · exact Or.inl (Or.inl h')
                  · exact Or.inr h'
                · exact Or.inl (Or.inr h)
              · rintro (h | h)
                · rcases h with h' | h'
                  · exact Or.inl (hmx.2 (Or.inl h'))
                  · exact Or.inr h'
                · exact Or.inl (hmx.2 (Or.inr h))
            · dsimp only
              simp only [inorder_node, List.length_append, List.length_cons]
              omega
            · intro _
              dsimp only
              simp only [avlHeight_node]
              omega
          · intro d hd
            simp at hd
        | true =>
          have hstep : avlTreeInsertAux cmp (node l b o r) k =
              ((avlHandleSubtreeGrowth (node l' b o r) (-1)).1,
               !(avlHandleSubtreeGrowth (node l' b o r) (-1)).2, none) := by
            simp only [avlTreeInsertAux]
            rw [if_pos hres, hrec]
            rfl
          rw [hstep]
          clear hstep
          obtain ⟨hg1, hg2⟩ := hGrew rfl
          obtain ⟨hA, hI, hT, hF⟩ :=
            growth_spec_left (l := l) (o := o) (b := b) hAvl hbr hg1 hbeq hd1 hd2 hg2
          constructor
          · intro _
            refine ⟨hA, ?_, ?_, ?_, hnotmem, ?_, ?_⟩
            · dsimp only
              rw [hI, pairwise_node_iff]
              refine ⟨hPw, hpr, ?_, hor⟩
              intro x hx
              rcases (hMem x).1 hx with h | h
              · exact hlo x h
              · subst h
                exact hko
            · intro x
              dsimp only
              rw [hI]
              simp only [inorder_node, List.mem_append, List.mem_cons]
              have hmx := hMem x
              constructor
              · rintro (h | h)
                · rcases hmx.1 h with h' | h'
                  · exact Or.inl (Or.inl h')
                  · exact Or.inr h'
                · exact Or.inl (Or.inr h)
              · rintro (h | h)
                · rcases h with h' | h'
                  · exact Or.inl (hmx.2 (Or.inl h'))
                  · exact Or.inr h'
                · exact Or.inl (hmx.2 (Or.inr h))
            · dsimp only
              rw [hI]
              simp only [inorder_node, List.length_append, List.length_cons]
              omega
            · intro hdone
              dsimp only at hdone
              rw [Bool.not_eq_true'] at hdone
              obtain ⟨hFa, hFb⟩ := hF hdone
              constructor
              · dsimp only
                rw [hFa]
                simp only [avlHeight_node]
                try omega
              · exact Or.inl hFb
            · intro hdone
              dsimp only at hdone
              rw [Bool.not_eq_false'] at hdone
              dsimp only
              rw [hT hdone]
              simp only [avlHeight_node]
          · intro d hd
            simp at hd
    · clear ihl ihr
      have hres : cmp k o = 0 := (hc k o).2.mpr hko
      have hstep : avlTreeInsertAux cmp (node l b o r) k = (node l b o r, false, some o) := by
        simp only [avlTreeInsertAux]
        rw [if_neg (by omega), if_neg (by omega)]
      rw [hstep]
      clear hstep
      constructor
      · intro hcon
        simp at hcon
      · intro d hd
        have hdo : o = d := by injection hd
        subst hdo
        refine ⟨rfl, rfl, hko.symm, ?_⟩
        subst hko
        simp [inorder_node]
    · have hgt : 0 < cmp k o := (lawfulCmp_gt hc).mpr hko
      rcases hrec : avlTreeInsertAux cmp r k with ⟨r', grew, dup⟩
      cases dup with
      | some d =>
        obtain ⟨-, -, hdk, hkin⟩ := (ihr hbr hpr).2 d (by rw [hrec])
        clear ihl ihr
        have hstep : avlTreeInsertAux cmp (node l b o r) k = (node l b o r, false, some d) := by
          simp only [avlTreeInsertAux]
          rw [if_neg (by omega), if_pos hgt, hrec]
        rw [hstep]
        clear hstep
        constructor
        · intro hcon
          simp at hcon
        · intro d' hd'
          have hdd : d = d' := by injection hd'
          subst hdd
          refine ⟨rfl, rfl, hdk, ?_⟩
          simp only [inorder_node, List.mem_append, List.mem_cons]
          exact Or.inr (Or.inr hkin)
      | none =>
        obtain ⟨hAvl, hPw, hMem, hLen, hNotIn, hGrew, hNoGrew⟩ := (ihr hbr hpr).1 (by rw [hrec])
        clear ihl ihr hbal
        rw [hrec] at hAvl hPw hMem hLen hGrew hNoGrew
        dsimp only at hAvl hPw hMem hLen hGrew hNoGrew
        have hnotmem : k ∉ inorder (node l b o r) := by
          simp only [inorder_node, List.mem_append, List.mem_cons]
          push_neg
          exact ⟨fun hkl => absurd (hlo k hkl) (asymm hko), ne_of_gt hko, hNotIn⟩
        cases grew with
        | false =>
          have hstep : avlTreeInsertAux cmp (node l b o r) k = (node l b o r', false, none) := by
            simp only [avlTreeInsertAux]
            rw [if_neg (by omega), if_pos hgt, hrec]
            rfl
          rw [hstep]
          clear hstep
          have hhe : avlHeight r' = avlHeight r := hNoGrew rfl
          constructor
          · intro _
            refine ⟨?_, ?_, ?_, ?_, hnotmem, by simp, ?_⟩
            · rw [isAvlBal_node]
              exact ⟨hbl, hAvl, by omega, by omega, by omega⟩
            · dsimp only
              rw [inorder_node, pairwise_node_iff]
              refine ⟨hpl, hPw, hlo, ?_⟩
              intro x hx
              rcases (hMem x).1 hx with h | h
              · exact hor x h
              · subst h
                exact hko
            · intro x
              dsimp only
              simp only [inorder_node, List.mem_append, List.mem_cons]
              have hmx := hMem x
              constructor
              · rintro (h | h | h)
                · exact Or.inl (Or.inl h)
                · exact Or.inl (Or.inr (Or.inl h))
                · rcases hmx.1 h with h' | h'
                  · exact Or.inl (Or.inr (Or.inr h'))
                  · exact Or.inr h'
              · rintro ((h | h | h) | h)
                · exact Or.inl h
                · exact Or.inr (Or.inl h)
                · exact Or.inr (Or.inr (hmx.2 (Or.inl h)))
                · exact Or.inr (Or.inr (hmx.2 (Or.inr h)))
            · dsimp only
              simp only [inorder_node, List.length_append, List.length_cons]
              omega
            · intro _
              dsimp only
              simp only [avlHeight_node]
              omega
          · intro d hd
            simp at hd
        | true =>
          have hstep : avlTreeInsertAux cmp (node l b o r) k =
              ((avlHandleSubtreeGrowth (node l b o r') 1).1,
               !(avlHandleSubtreeGrowth (node l b o r') 1).2, none) := by
            simp only [avlTreeInsertAux]
            rw [if_neg (by omega), if_pos hgt, hrec]
            rfl
          rw [hstep]
          clear hstep
          obtain ⟨hg1, hg2⟩ := hGrew rfl
          obtain ⟨hA, hI, hT, hF⟩ :=
            growth_spec_right (r := r) (o := o) (b := b) hbl hAvl hg1 hbeq hd1 hd2 hg2
          constructor
          · intro _
            refine ⟨hA, ?_, ?_, ?_, hnotmem, ?_, ?_⟩
            · dsimp only
              rw [hI, pairwise_node_iff]
              refine ⟨hpl, hPw, hlo, ?_⟩
              intro x hx
              rcases (hMem x).1 hx with h | h
              · exact hor x h
              · subst h
                exact hko
            · intro x
              dsimp only
              rw [hI]
              simp only [inorder_node, List.mem_append, List.mem_cons]
              have hmx := hMem x
              constructor
              · rintro (h | h | h)
                · exact Or.inl (Or.inl h)
                · exact Or.inl (Or.inr (Or.inl h))
                · rcases hmx.1 h with h' | h'
                  · exact Or.inl (Or.inr (Or.inr h'))
                  · exact Or.inr h'
              · rintro ((h | h | h) | h)
                · exact Or.inl h
                · exact Or.inr (Or.inl h)
                · exact Or.inr (Or.inr (hmx.2 (Or.inl h)))
                · exact Or.inr (Or.inr (hmx.2 (Or.inr h)))
            · dsimp only
              rw [hI]
              simp only [inorder_node, List.length_append, List.length_cons]
              omega
            · intro hdone
              dsimp only at hdone
              rw [Bool.not_eq_true'] at hdone
              obtain ⟨hFa, hFb⟩ := hF hdone
              constructor
              · dsimp only
                rw [hFa]
                simp only [avlHeight_node]
                try omega
              · exact Or.inl hFb
            · intro hdone
              dsimp only at hdone
              rw [Bool.not_eq_false'] at hdone
              dsimp only
              rw [hT hdone]
              simp only [avlHeight_node]
          · intro d hd
            simp at hd


/-! ## Deletion: the successor chase -/

theorem removeMin_spec [LinearOrder α] {t : AvlTree α} (hbal : isAvlBal t = true)
    (hne : t ≠ nil) :
    ∃ t' sh m, avlRemoveMin t = some (t', sh, m) ∧ isAvlBal t' = true ∧
      inorder t = m :: inorder t' ∧
      (sh = true → avlHeight t = avlHeight t' + 1) ∧
      (sh = false → avlHeight t = avlHeight t') := by
  induction t with
  | nil => exact absurd rfl hne
  | node l b o r ihl ihr =>
    clear ihr hne
    obtain ⟨hbl, hbr, hd1, hd2, hbeq⟩ := isAvlBal_node.mp hbal
    by_cases hlnil : l = nil
    · subst hlnil
      refine ⟨r, true, o, by simp [avlRemoveMin], hbr, by simp, ?_, by simp⟩
      intro _
      simp only [avlHeight_node, avlHeight_nil]
      omega
    · obtain ⟨l', sh, m, hrec, hA, hI, hT, hF⟩ := ihl hbl hlnil
      clear ihl hbal
      cases sh with
      | false =>
        have hhe : avlHeight l = avlHeight l' := hF rfl
        refine ⟨node l' b o r, false, m, ?_, ?_, ?_, by simp, ?_⟩
        · simp only [avlRemoveMin]
          rw [hrec]
          rfl
        · rw [isAvlBal_node]
          exact ⟨hA, hbr, by omega, by omega, by omega⟩
        · rw [inorder_node, inorder_node, hI]
          simp
        · intro _
          simp only [avlHeight_node]
          omega
      | true =>
        have hh : avlHeight l = avlHeight l' + 1 := hT rfl
        obtain ⟨hA', hI', hT', hF'⟩ :=
          shrink_spec_left (l := l) (o := o) (b := b) hA hbr hh hbeq hd1 hd2
        refine ⟨(avlHandleSubtreeShrink (node l' b o r) 1).1,
          (avlHandleSubtreeShrink (node l' b o r) 1).2, m, ?_, hA', ?_, ?_, ?_⟩
        · simp only [avlRemoveMin]
          rw [hrec]
          rfl
        · rw [hI', inorder_node, hI]
          simp
        · intro h
          rw [hT' h]
          try simp only [avlHeight_node]
          try omega
        · intro h
          rw [hF' h]
          try simp only [avlHeight_node]
          try omega


set_option maxHeartbeats 2000000 in
theorem remove_aux_spec [LinearOrder α] {cmp : α → α → Int} (hc : LawfulCmp cmp)
    (k : α) (t : AvlTree α) (hbal : isAvlBal t = true)
    (hbst : (inorder t).Pairwise (· < ·)) :
    ((avlTreeRemoveAux cmp t k).2.2 = false →
      (avlTreeRemoveAux cmp t k).1 = t ∧ (avlTreeRemoveAux cmp t k).2.1 = false ∧
      k ∉ inorder t) ∧
    ((avlTreeRemoveAux cmp t k).2.2 = true →
      k ∈ inorder t ∧
      isAvlBal (avlTreeRemoveAux cmp t k).1 = true ∧
      inorder (avlTreeRemoveAux cmp t k).1 = (inorder t).erase k ∧
      ((avlTreeRemoveAux cmp t k).2.1 = true →
        avlHeight t = avlHeight (avlTreeRemoveAux cmp t k).1 + 1) ∧
      ((avlTreeRemoveAux cmp t k).2.1 = false →
        avlHeight t = avlHeight (avlTreeRemoveAux cmp t k).1)) := by
  induction t with
  | nil =>
    constructor
    · intro _
      exact ⟨rfl, rfl, by simp⟩
    · intro hcon
      simp [avlTreeRemoveAux] at hcon
  | node l b o r ihl ihr =>
    obtain ⟨hbl, hbr, hd1, hd2, hbeq⟩ := isAvlBal_node.mp hbal
    rw [inorder_node, pairwise_node_iff] at hbst
    obtain ⟨hpl, hpr, hlo, hor⟩ := hbst
    rcases lt_trichotomy k o with hko | hko | hko
    · have hres : cmp k o < 0 := (hc k o).1.mpr hko
      obtain ⟨ihf, iht⟩ := ihl hbl hpl
      clear ihl ihr hbal
      rcases hrec : avlTreeRemoveAux cmp l k with ⟨l', sh, found⟩
      cases found with
      | false =>
        obtain ⟨he1, he2, hnk⟩ := ihf (by rw [hrec])
        clear ihf iht
        have hstep : avlTreeRemoveAux cmp (node l b o r) k = (node l b o r, false, false) := by
          simp only [avlTreeRemoveAux]
          rw [if_pos hres, hrec]
          rfl
        rw [hstep]
        clear hstep
        constructor
        · intro _
          refine ⟨rfl, rfl, ?_⟩
          simp only [inorder_node, List.mem_append, List.mem_cons]
          push_neg
          exact ⟨hnk, ne_of_lt hko, fun hkr => absurd (hor k hkr) (asymm hko)⟩
        · intro hcon
          simp at hcon
      | true =>
        obtain ⟨hkin, hA, hEr, hsT, hsF⟩ := iht (by rw [hrec])
        clear ihf iht
        rw [hrec] at hA hEr hsT hsF
        dsimp only at hA hEr hsT hsF
        have herase : (inorder (node l b o r)).erase k = (inorder l).erase k ++ o :: inorder r := by
          rw [inorder_node]
          exact List.erase_append_left _ hkin
        cases sh with
        | false =>
          have hhe : avlHeight l = avlHeight l' := hsF rfl
          have hstep : avlTreeRemoveAux cmp (node l b o r) k = (node l' b o r, false, true) := by
            simp only [avlTreeRemoveAux]
            rw [if_pos hres, hrec]
            rfl
          rw [hstep]
          clear hstep
          constructor
          · intro hcon
            simp at hcon
          · intro _
            refine ⟨?_, ?_, ?_, by simp, ?_⟩
            · simp only [inorder_node, List.mem_append]
              exact Or.inl hkin
            · rw [isAvlBal_node]
              exact ⟨hA, hbr, by omega, by omega, by omega⟩
            · dsimp only
              rw [inorder_node, hEr, herase]
            · intro _
              dsimp only
              simp only [avlHeight_node]
              omega
        | true =>
          have hh : avlHeight l = avlHeight l' + 1 := hsT rfl
          obtain ⟨hA', hI', hT', hF'⟩ :=
            shrink_spec_left (l := l) (o := o) (b := b) hA hbr hh hbeq hd1 hd2
          have hstep : avlTreeRemoveAux cmp (node l b o r) k =
              ((avlHandleSubtreeShrink (node l' b o r) 1).1,
               (avlHandleSubtreeShrink (node l' b o r) 1).2, true) := by
            simp only [avlTreeRemoveAux]
            rw [if_pos hres, hrec]
            rfl
          rw [hstep]
          clear hstep
          constructor
          · intro hcon
            simp at hcon
          · intro _
            refine ⟨?_, hA', ?_, ?_, ?_⟩
            · simp only [inorder_node, List.mem_append]
              exact Or.inl hkin
            · dsimp only
              rw [hI', hEr, herase]
            · intro h
              dsimp only at h ⊢
              rw [hT' h]
              try simp only [avlHeight_node]
              try omega
            · intro h
              dsimp only at h ⊢
              rw [hF' h]
              try simp only [avlHeight_node]
              try omega
    · subst hko
      clear ihl ihr
      have hres : cmp k k = 0 := (hc k k).2.mpr rfl
      have hknotl : k ∉ inorder l := fun hx => absurd (hlo k hx) (lt_irrefl k)
      cases l with
      | nil =>
        have hstep : avlTreeRemoveAux cmp (node nil b k r) k = (r, true, true) := by
          simp only [avlTreeRemoveAux]
          rw [if_neg (by omega), if_neg (by omega)]
        rw [hstep]
        clear hstep
        constructor
        · intro hcon
          simp at hcon
        · intro _
          refine ⟨by simp, hbr, ?_, ?_, by simp⟩
          · simp only [inorder_node, inorder_nil, List.nil_append, List.erase_cons_head]
          · intro _
            simp only [avlHeight_node, avlHeight_nil]
            omega
      | node ll lb lo lr =>
        cases r with
        | nil =>
          have hstep : avlTreeRemoveAux cmp (node (node ll lb lo lr) b k nil) k
              = (node ll lb lo lr, true, true) := by
            simp only [avlTreeRemoveAux]
            rw [if_neg (by omega), if_neg (by omega)]
          rw [hstep]
          clear hstep
          constructor
          · intro hcon
            simp at hcon
          · intro _
            refine ⟨by simp, hbl, ?_, ?_, by simp⟩
            · rw [inorder_node (node ll lb lo lr) b k nil,
                List.erase_append_right _ hknotl, List.erase_cons_head]
              simp
            · intro _
              simp only [avlHeight_node, avlHeight_nil]
              omega
        | node rl rb ro rr =>
          obtain ⟨r', sh, m, hmrec, hA, hIr, hTt, hFf⟩ :=
            removeMin_spec hbr (fun h => AvlTree.noConfusion h)
          cases sh with
          | false =>
            have hhe : avlHeight (node rl rb ro rr) = avlHeight r' := hFf rfl
            have hstep : avlTreeRemoveAux cmp (node (node ll lb lo lr) b k (node rl rb ro rr)) k
                = (node (node ll lb lo lr) b m r', false, true) := by
              simp only [avlTreeRemoveAux]
              rw [if_neg (by omega), if_neg (by omega), hmrec]
              rfl
            rw [hstep]
            clear hstep
            constructor
            · intro hcon
              simp at hcon
            · intro _
              refine ⟨?_, ?_, ?_, by simp, ?_⟩
              · simp [inorder_node]
              · rw [isAvlBal_node]
                exact ⟨hbl, hA, by omega, by omega, by omega⟩
              · dsimp only
                rw [inorder_node (node ll lb lo lr) b k (node rl rb ro rr),
                  List.erase_append_right _ hknotl, List.erase_cons_head, hIr,
                  inorder_node (node ll lb lo lr) b m r']
              · intro _
                dsimp only
                simp only [avlHeight_node] at hhe ⊢
                omega
          | true =>
            have hh : avlHeight (node rl rb ro rr) = avlHeight r' + 1 := hTt rfl
            obtain ⟨hA', hI', hT', hF'⟩ :=
              shrink_spec_right (l := node ll lb lo lr) (r := node rl rb ro rr)
                (o := m) (b := b) hbl hA hh hbeq hd1 hd2
            have hstep : avlTreeRemoveAux cmp (node (node ll lb lo lr) b k (node rl rb ro rr)) k
                = ((avlHandleSubtreeShrink (node (node ll lb lo lr) b m r') (-1)).1,
                   (avlHandleSubtreeShrink (node (node ll lb lo lr) b m r') (-1)).2, true) := by
              simp only [avlTreeRemoveAux]
              rw [if_neg (by omega), if_neg (by omega), hmrec]
              rfl
            rw [hstep]
            clear hstep
            constructor
            · intro hcon
              simp at hcon
            · intro _
              refine ⟨?_, hA', ?_, ?_, ?_⟩
              · simp [inorder_node]
              · dsimp only
                rw [hI', inorder_node (node ll lb lo lr) b k (node rl rb ro rr),
                  List.erase_append_right _ hknotl, List.erase_cons_head, hIr]
              · intro h
                dsimp only at h ⊢
                rw [hT' h]
                try simp only [avlHeight_node]
                try omega
              · intro h
                dsimp only at h ⊢
                rw [hF' h]
                try simp only [avlHeight_node]
                try omega
    · have hgt : 0 < cmp k o := (lawfulCmp_gt hc).mpr hko
      obtain ⟨ihf, iht⟩ := ihr hbr hpr
      clear ihl ihr hbal
      have hknotl : k ∉ inorder l := fun hx => absurd (lt_trans (hlo k hx) hko) (lt_irrefl k)
      rcases hrec : avlTreeRemoveAux cmp r k with ⟨r', sh, found⟩
      cases found with
      | false =>
        obtain ⟨he1, he2, hnk⟩ := ihf (by rw [hrec])
        clear ihf iht
        have hstep : avlTreeRemoveAux cmp (node l b o r) k = (node l b o r, false, false) := by
          simp only [avlTreeRemoveAux]
          rw [if_neg (by omega), if_pos hgt, hrec]
          rfl
        rw [hstep]
        clear hstep
        constructor
        · intro _
          refine ⟨rfl, rfl, ?_⟩
          simp only [inorder_node, List.mem_append, List.mem_cons]
          push_neg
          exact ⟨hknotl, ne_of_gt hko, hnk⟩
        · intro hcon
          simp at hcon
      | true =>
        obtain ⟨hkin, hA, hEr, hsT, hsF⟩ := iht (by rw [hrec])
        clear ihf iht
        rw [hrec] at hA hEr hsT hsF
        dsimp only at hA hEr hsT hsF
        have herase : (inorder (node l b o r)).erase k = inorder l ++ o :: (inorder r).erase k := by
          rw [inorder_node, List.erase_append_right _ hknotl,
            List.erase_cons_tail (by simp [ne_of_lt hko])]
        cases sh with
        | false =>
          have hhe : avlHeight r = avlHeight r' := hsF rfl
          have hstep : avlTreeRemoveAux cmp (node l b o r) k = (node l b o r', false, true) := by
            simp only [avlTreeRemoveAux]
            rw [if_neg (by omega), if_pos hgt, hrec]
            rfl
          rw [hstep]
          clear hstep
          constructor
          · intro hcon
            simp at hcon
          · intro _
            refine ⟨?_, ?_, ?_, by simp, ?_⟩
            · simp only [inorder_node, List.mem_append, List.mem_cons]
              exact Or.inr (Or.inr hkin)
            · rw [isAvlBal_node]
              exact ⟨hbl, hA, by omega, by omega, by omega⟩
            · dsimp only
              rw [inorder_node, hEr, herase]
            · intro _
              dsimp only
              simp only [avlHeight_node]
              omega
        | true =>
          have hh : avlHeight r = avlHeight r' + 1 := hsT rfl
          obtain ⟨hA', hI', hT', hF'⟩ :=
            shrink_spec_right (r := r) (o := o) (b := b) hbl hA hh hbeq hd1 hd2
          have hstep : avlTreeRemoveAux cmp (node l b o r) k =
              ((avlHandleSubtreeShrink (node l b o r') (-1)).1,
               (avlHandleSubtreeShrink (node l b o r') (-1)).2, true) := by
            simp only [avlTreeRemoveAux]
            rw [if_neg (by omega), if_pos hgt, hrec]
            rfl
          rw [hstep]
          clear hstep
          constructor
          · intro hcon
            simp at hcon
          · intro _
            refine ⟨?_, hA', ?_, ?_, ?_⟩
            · simp only [inorder_node, List.mem_append, List.mem_cons]
              exact Or.inr (Or.inr hkin)
            · dsimp only
              rw [hI', hEr, herase]
            · intro h
              dsimp only at h ⊢
              rw [hT' h]
              try simp only [avlHeight_node]
              try omega
            · intro h
              dsimp only at h ⊢
              rw [hF' h]
              try simp only [avlHeight_node]
              try omega


/-! ## Traversal correctness

`pathRestF p` is the list of owners still to be visited after the current
subtree is exhausted, reading the ancestor chain (the `parent` pointers)
upward; `visitListF` prepends the part of the current subtree that a
forward in-order walk positioned at its root still has to produce.
`pathRestB`/`visitListB` are the mirror images for the backward walk. -/

def pathRestF : AvlPath α → List α
  | AvlPath.root => []
  | AvlPath.left _ o r p => o :: inorder r ++ pathRestF p
  | AvlPath.right _ _ _ p => pathRestF p

def visitListF : AvlTree α × AvlPath α → List α
  | (nil, _) => []
  | (node _ _ o r, p) => o :: (inorder r ++ pathRestF p)

def pathRestB : AvlPath α → List α
  | AvlPath.root => []
  | AvlPath.left _ _ _ p => pathRestB p
  | AvlPath.right l _ o p => o :: (inorder l).reverse ++ pathRestB p

def visitListB : AvlTree α × AvlPath α → List α
  | (nil, _) => []
  | (node l _ o _, p) => o :: ((inorder l).reverse ++ pathRestB p)

theorem extremeLoc_left_spec (t : AvlTree α) : ∀ p : AvlPath α, t ≠ nil →
    ∃ loc, avlTreeExtremeLoc (-1) t p = some loc ∧
      visitListF loc = inorder t ++ pathRestF p := by
  induction t with
  | nil => exact fun p h => absurd rfl h
  | node l b o r ihl ihr =>
    intro p _
    cases l with
    | nil =>
      refine ⟨(node nil b o r, p), ?_, ?_⟩
      · simp [avlTreeExtremeLoc]
      · simp [visitListF]
    | node a x y z =>
      obtain ⟨loc, hloc, hvl⟩ := ihl (AvlPath.left b o r p) (fun h => AvlTree.noConfusion h)
      refine ⟨loc, ?_, ?_⟩
      · rw [← hloc]
        simp [avlTreeExtremeLoc]
      · rw [hvl]
        simp [pathRestF]

theorem ascend_next_spec : ∀ (p : AvlPath α) (t : AvlTree α),
    (∀ loc, avlTreeAscend 1 t p = some loc → visitListF loc = pathRestF p) ∧
    (avlTreeAscend 1 t p = none → pathRestF p = []) := by
  intro p
  induction p with
  | root =>
    intro t
    constructor
    · intro loc hcon
      simp [avlTreeAscend] at hcon
    · intro _
      rfl
  | left b o r p' ih =>
    intro t
    constructor
    · intro loc hloc
      simp only [avlTreeAscend] at hloc
      rw [if_neg (by norm_num)] at hloc
      injection hloc with h
      subst h
      simp [visitListF, pathRestF]
    · intro hcon
      simp only [avlTreeAscend] at hcon
      rw [if_neg (by norm_num)] at hcon
      exact absurd hcon (by simp)
  | right l b o p' ih =>
    intro t
    constructor
    · intro loc hloc
      simp only [avlTreeAscend] at hloc
      rw [if_neg (by norm_num)] at hloc
      exact (ih (node l b o t)).1 loc hloc
    · intro hnone
      simp only [avlTreeAscend] at hnone
      rw [if_neg (by norm_num)] at hnone
      exact (ih (node l b o t)).2 hnone

theorem next_spec (l : AvlTree α) (b : Int) (o : α) (r : AvlTree α) (p : AvlPath α) :
    (∀ loc, avlTreeNextOrPrevInOrder 1 (node l b o r) p = some loc →
      visitListF loc = inorder r ++ pathRestF p) ∧
    (avlTreeNextOrPrevInOrder 1 (node l b o r) p = none →
      inorder r ++ pathRestF p = []) := by
  cases r with
  | nil =>
    have hasc := ascend_next_spec p (node l b o nil)
    constructor
    · intro loc hloc
      simp only [avlTreeNextOrPrevInOrder] at hloc
      rw [if_neg (by norm_num)] at hloc
      rw [hasc.1 loc hloc]
      simp
    · intro hnone
      simp only [avlTreeNextOrPrevInOrder] at hnone
      rw [if_neg (by norm_num)] at hnone
      rw [hasc.2 hnone]
      simp
  | node a x y z =>
    obtain ⟨loc0, hloc0, hvl0⟩ :=
      extremeLoc_left_spec (node a x y z) (AvlPath.right l b o p) (fun h => AvlTree.noConfusion h)
    constructor
    · intro loc hloc
      simp only [avlTreeNextOrPrevInOrder] at hloc
      rw [if_neg (by norm_num)] at hloc
      rw [show (-(1:Int)) = -1 by norm_num] at hloc
      rw [hloc0] at hloc
      injection hloc with h
      subst h
      rw [hvl0]
      simp [pathRestF]
    · intro hnone
      simp only [avlTreeNextOrPrevInOrder] at hnone
      rw [if_neg (by norm_num)] at hnone
      rw [show (-(1:Int)) = -1 by norm_num] at hnone
      rw [hloc0] at hnone
      exact absurd hnone (by simp)

theorem visit_forward_spec : ∀ (n : Nat) (loc : AvlTree α × AvlPath α),
    (visitListF loc).length = n → avlVisit 1 n (some loc) = visitListF loc := by
  intro n
  induction n with
  | zero =>
    intro loc hlen
    rcases loc with ⟨t, p⟩
    cases t with
    | nil => rfl
    | node l b o r => simp [visitListF] at hlen
  | succ n ih =>
    intro loc hlen
    rcases loc with ⟨t, p⟩
    cases t with
    | nil => simp [visitListF] at hlen
    | node l b o r =>
      simp only [visitListF] at hlen ⊢
      simp only [avlVisit]
      have hnext := next_spec l b o r p
      rcases hcase : avlTreeNextOrPrevInOrder 1 (node l b o r) p with - | loc'
      · have hempty := hnext.2 hcase
        rw [hempty] at hlen ⊢
        simp at hlen
        subst hlen
        rfl
      · have hvl' := hnext.1 loc' hcase
        rw [ih loc' (by rw [hvl']; simpa using hlen), hvl']

theorem forward_visit_eq_inorder (t : AvlTree α) : avlForwardVisit t = inorder t := by
  cases t with
  | nil => rfl
  | node l b o r =>
    unfold avlForwardVisit
    obtain ⟨loc, hloc, hvl⟩ :=
      extremeLoc_left_spec (node l b o r) AvlPath.root (fun h => AvlTree.noConfusion h)
    rw [hloc]
    have hlen : (visitListF loc).length = avlSize (node l b o r) := by
      rw [hvl]
      simp only [pathRestF, List.append_nil]
      exact length_inorder _
    rw [visit_forward_spec _ loc hlen, hvl]
    simp [pathRestF]

theorem extremeLoc_right_spec (t : AvlTree α) : ∀ p : AvlPath α, t ≠ nil →
    ∃ loc, avlTreeExtremeLoc 1 t p = some loc ∧
      visitListB loc = (inorder t).reverse ++ pathRestB p := by
  induction t with
  | nil => exact fun p h => absurd rfl h
  | node l b o r ihl ihr =>
    intro p _
    cases r with
    | nil =>
      refine ⟨(node l b o nil, p), ?_, ?_⟩
      · simp [avlTreeExtremeLoc]
      · simp [visitListB]
    | node a x y z =>
      obtain ⟨loc, hloc, hvl⟩ := ihr (AvlPath.right l b o p) (fun h => AvlTree.noConfusion h)
      refine ⟨loc, ?_, ?_⟩
      · rw [← hloc]
        simp [avlTreeExtremeLoc]
      · rw [hvl]
        simp [pathRestB, List.reverse_append]

theorem ascend_prev_spec : ∀ (p : AvlPath α) (t : AvlTree α),
    (∀ loc, avlTreeAscend (-1) t p = some loc → visitListB loc = pathRestB p) ∧
    (avlTreeAscend (-1) t p = none → pathRestB p = []) := by
  intro p
  induction p with
  | root =>
    intro t
    constructor
    · intro loc hcon
      simp [avlTreeAscend] at hcon
    · intro _
      rfl
  | left b o r p' ih =>
    intro t
    constructor
    · intro loc hloc
      simp only [avlTreeAscend] at hloc
      rw [if_pos (by norm_num)] at hloc
      exact (ih (node t b o r)).1 loc hloc
    · intro hnone
      simp only [avlTreeAscend] at hnone
      rw [if_pos (by norm_num)] at hnone
      exact (ih (node t b o r)).2 hnone
  | right l b o p' ih =>
    intro t
    constructor
    · intro loc hloc
      simp only [avlTreeAscend] at hloc
      rw [if_pos (by norm_num)] at hloc
      injection hloc with h
      subst h
      simp [visitListB, pathRestB]
    · intro hcon
      simp only [avlTreeAscend] at hcon
      rw [if_pos (by norm_num)] at hcon
      exact absurd hcon (by simp)

theorem prev_spec (l : AvlTree α) (b : Int) (o : α) (r : AvlTree α) (p : AvlPath α) :
    (∀ loc, avlTreeNextOrPrevInOrder (-1) (node l b o r) p = some loc →
      visitListB loc = (inorder l).reverse ++ pathRestB p) ∧
    (avlTreeNextOrPrevInOrder (-1) (node l b o r) p = none →
      (inorder l).reverse ++ pathRestB p = []) := by
  cases l with
  | nil =>
    have hasc := ascend_prev_spec p (node nil b o r)
    constructor
    · intro loc hloc
      simp only [avlTreeNextOrPrevInOrder] at hloc
      rw [if_pos (by norm_num)] at hloc
      rw [hasc.1 loc hloc]
      simp
    · intro hnone
      simp only [avlTreeNextOrPrevInOrder] at hnone
      rw [if_pos (by norm_num)] at hnone
      rw [hasc.2 hnone]
      simp
  | node a x y z =>
    obtain ⟨loc0, hloc0, hvl0⟩ :=
      extremeLoc_right_spec (node a x y z) (AvlPath.left b o r p) (fun h => AvlTree.noConfusion h)
    constructor
    · intro loc hloc
      simp only [avlTreeNextOrPrevInOrder] at hloc
      rw [if_pos (by norm_num)] at hloc
      rw [show (-(-1:Int)) = 1 by norm_num] at hloc
      rw [hloc0] at hloc
      injection hloc with h
      subst h
      rw [hvl0]
      simp [pathRestB]
    · intro hnone
      simp only [avlTreeNextOrPrevInOrder] at hnone
      rw [if_pos (by norm_num)] at hnone
      rw [show (-(-1:Int)) = 1 by norm_num] at hnone
      rw [hloc0] at hnone
      exact absurd hnone (by simp)

theorem visit_backward_spec : ∀ (n : Nat) (loc : AvlTree α × AvlPath α),
    (visitListB loc).length = n → avlVisit (-1) n (some loc) = visitListB loc := by
  intro n
  induction n with
  | zero =>
    intro loc hlen
    rcases loc with ⟨t, p⟩
    cases t with
    | nil => rfl
    | node l b o r => simp [visitListB] at hlen
  | succ n ih =>
    intro loc hlen
    rcases loc with ⟨t, p⟩
    cases t with
    | nil => simp [visitListB] at hlen
    | node l b o r =>
      simp only [visitListB] at hlen ⊢
      simp only [avlVisit]
      have hprev := prev_spec l b o r p
      rcases hcase : avlTreeNextOrPrevInOrder (-1) (node l b o r) p with - | loc'
      · have hempty := hprev.2 hcase
        rw [hempty] at hlen ⊢
        simp at hlen
        subst hlen
        rfl
      · have hvl' := hprev.1 loc' hcase
        rw [ih loc' (by rw [hvl']; simpa using hlen), hvl']

theorem backward_visit_eq_reverse (t : AvlTree α) :
    avlBackwardVisit t = (inorder t).reverse := by
  cases t with
  | nil => rfl
  | node l b o r =>
    unfold avlBackwardVisit
    obtain ⟨loc, hloc, hvl⟩ :=
      extremeLoc_right_spec (node l b o r) AvlPath.root (fun h => AvlTree.noConfusion h)
    rw [hloc]
    have hlen : (visitListB loc).length = avlSize (node l b o r) := by
      rw [hvl]
      simp only [pathRestB, List.append_nil, List.length_reverse]
      exact length_inorder _
    rw [visit_backward_spec _ loc hlen, hvl]
    simp [pathRestB]


/-! ## Packaged invariant preservation for the public operations -/

theorem AvlTreeInsert_eq (cmp : α → α → Int) (t : AvlTree α) (k : α) :
    AvlTreeInsert cmp t k = ((avlTreeInsertAux cmp t k).1, (avlTreeInsertAux cmp t k).2.2) := by
  unfold AvlTreeInsert
  rcases avlTreeInsertAux cmp t k with ⟨a, bc⟩
  rfl

theorem AvlTreeInsert_spec [LinearOrder α] {cmp : α → α → Int} (hc : LawfulCmp cmp)
    (t : AvlTree α) (k : α) (hbal : isAvlBal t = true)
    (hbst : (inorder t).Pairwise (· < ·)) :
    isAvlBal (AvlTreeInsert cmp t k).1 = true ∧
    (inorder (AvlTreeInsert cmp t k).1).Pairwise (· < ·) ∧
    (∀ x, x ∈ inorder (AvlTreeInsert cmp t k).1 ↔ x ∈ inorder t ∨ x = k) := by
  rw [AvlTreeInsert_eq]
  dsimp only
  have h := insert_aux_spec hc k t hbal hbst
  rcases hdup : (avlTreeInsertAux cmp t k).2.2 with - | d
  · obtain ⟨hA, hP, hM, -⟩ := h.1 hdup
    exact ⟨hA, hP, hM⟩
  · obtain ⟨he, -, hdk, hkin⟩ := h.2 d hdup
    rw [he]
    subst hdk
    refine ⟨hbal, hbst, ?_⟩
    intro x
    constructor
    · exact fun hx => Or.inl hx
    · rintro (hx | rfl)
      · exact hx
      · exact hkin

theorem avlTreeRemoveKey_spec [LinearOrder α] {cmp : α → α → Int} (hc : LawfulCmp cmp)
    (t : AvlTree α) (k : α) (hbal : isAvlBal t = true)
    (hbst : (inorder t).Pairwise (· < ·)) :
    isAvlBal (avlTreeRemoveKey cmp t k) = true ∧
    (inorder (avlTreeRemoveKey cmp t k)).Pairwise (· < ·) ∧
    (∀ x, x ∈ inorder (avlTreeRemoveKey cmp t k) ↔ x ∈ inorder t ∧ x ≠ k) := by
  unfold avlTreeRemoveKey
  have h := remove_aux_spec hc k t hbal hbst
  rcases hf : (avlTreeRemoveAux cmp t k).2.2 with - | -
  · obtain ⟨he, -, hnk⟩ := h.1 hf
    rw [he]
    refine ⟨hbal, hbst, ?_⟩
    intro x
    constructor
    · intro hx
      refine ⟨hx, ?_⟩
      rintro rfl
      exact hnk hx
    · exact fun hx => hx.1
  · obtain ⟨hkin, hA, hEr, -⟩ := h.2 hf
    have hnd : (inorder t).Nodup := hbst.imp ne_of_lt
    refine ⟨hA, ?_, ?_⟩
    · rw [hEr]
      exact hbst.sublist ((inorder t).erase_sublist k)
    · intro x
      rw [hEr, hnd.mem_erase_iff]
      tauto

theorem applyOps_invariant [LinearOrder α] {cmp : α → α → Int} (hc : LawfulCmp cmp)
    (ops : List (AvlOp α)) :
    ∀ t : AvlTree α, isAvlBal t = true → (inorder t).Pairwise (· < ·) →
      isAvlBal (applyOps cmp ops t) = true ∧
      (inorder (applyOps cmp ops t)).Pairwise (· < ·) := by
  induction ops with
  | nil => exact fun t h1 h2 => ⟨h1, h2⟩
  | cons op rest ih =>
    intro t h1 h2
    cases op with
    | insert k =>
      obtain ⟨hA, hP, -⟩ := AvlTreeInsert_spec hc t k h1 h2
      exact ih _ hA hP
    | remove k =>
      obtain ⟨hA, hP, -⟩ := avlTreeRemoveKey_spec hc t k h1 h2
      exact ih _ hA hP

/-! ## Bulk insert/remove sequences -/

/-- Insert every key of a list in order with `AvlTreeInsert`. -/
def insertAll (cmp : α → α → Int) (t : AvlTree α) (ks : List α) : AvlTree α :=
  ks.foldl (fun s k => (AvlTreeInsert cmp s k).1) t

/-- Remove every key of a list in order with `AvlTreeRemove` (modelled by
`avlTreeRemoveKey`). -/
def removeAll (cmp : α → α → Int) (t : AvlTree α) (ks : List α) : AvlTree α :=
  ks.foldl (avlTreeRemoveKey cmp) t

theorem insertAll_spec [LinearOrder α] {cmp : α → α → Int} (hc : LawfulCmp cmp)
    (ks : List α) : ∀ t : AvlTree α, isAvlBal t = true → (inorder t).Pairwise (· < ·) →
    isAvlBal (insertAll cmp t ks) = true ∧
    (inorder (insertAll cmp t ks)).Pairwise (· < ·) ∧
    (∀ x, x ∈ inorder (insertAll cmp t ks) ↔ x ∈ inorder t ∨ x ∈ ks) := by
  induction ks with
  | nil =>
    intro t h1 h2
    refine ⟨h1, h2, ?_⟩
    simp [insertAll]
  | cons k rest ih =>
    intro t h1 h2
    obtain ⟨hA, hP, hM⟩ := AvlTreeInsert_spec hc t k h1 h2
    obtain ⟨hA', hP', hM'⟩ := ih _ hA hP
    refine ⟨hA', hP', ?_⟩
    intro x
    have hfold : insertAll cmp t (k :: rest) = insertAll cmp (AvlTreeInsert cmp t k).1 rest := rfl
    rw [hfold, hM' x, hM x]
    simp only [List.mem_cons]
    tauto

theorem removeAll_spec [LinearOrder α] {cmp : α → α → Int} (hc : LawfulCmp cmp)
    (ks : List α) : ∀ t : AvlTree α, isAvlBal t = true → (inorder t).Pairwise (· < ·) →
    isAvlBal (removeAll cmp t ks) = true ∧
    (inorder (removeAll cmp t ks)).Pairwise (· < ·) ∧
    (∀ x, x ∈ inorder (removeAll cmp t ks) ↔ x ∈ inorder t ∧ x ∉ ks) := by
  induction ks with
  | nil =>
    intro t h1 h2
    refine ⟨h1, h2, ?_⟩
    simp [removeAll]
  | cons k rest ih =>
    intro t h1 h2
    obtain ⟨hA, hP, hM⟩ := avlTreeRemoveKey_spec hc t k h1 h2
    obtain ⟨hA', hP', hM'⟩ := ih _ hA hP
    refine ⟨hA', hP', ?_⟩
    intro x
    have hfold : removeAll cmp t (k :: rest) = removeAll cmp (avlTreeRemoveKey cmp t k) rest := rfl
    rw [hfold, hM' x, hM x]
    simp only [List.mem_cons]
    constructor
    · rintro ⟨⟨hx, hne⟩, hnr⟩
      exact ⟨hx, by rintro (rfl | hr) <;> [exact hne rfl; exact hnr hr]⟩
    · rintro ⟨hx, hnkr⟩
      refine ⟨⟨hx, fun h => hnkr (Or.inl h)⟩, fun h => hnkr (Or.inr h)⟩

theorem eq_nil_of_inorder_nil {t : AvlTree α} (h : inorder t = []) : t = nil := by
  cases t with
  | nil => rfl
  | node l b o r => simp [inorder] at h


/-! ## The per-node balance predicate of the claims -/

/-- One node's AVL condition, phrased with `avlGetBalanceFactor`: the two
subtree heights differ by at most one and the decoded balance factor is
exactly height(right) minus height(left). -/
def balancedNode : AvlTree α → Bool
  | nil => true
  | node l b o r =>
    decide (-1 ≤ (avlHeight r : Int) - (avlHeight l : Int)) &&
    decide ((avlHeight r : Int) - (avlHeight l : Int) ≤ 1) &&
    decide (avlGetBalanceFactor (node l b o r) = (avlHeight r : Int) - (avlHeight l : Int))

/-- A predicate holding at every node of the tree. -/
def allSubtrees (pr : AvlTree α → Bool) : AvlTree α → Bool
  | nil => pr nil
  | node l b o r => pr (node l b o r) && allSubtrees pr l && allSubtrees pr r

theorem isAvlBal_iff_allSubtrees {t : AvlTree α} :
    isAvlBal t = true ↔ allSubtrees balancedNode t = true := by
  induction t with
  | nil => simp [allSubtrees, balancedNode]
  | node l b o r ihl ihr =>
    rw [isAvlBal_node]
    simp only [allSubtrees, balancedNode, Bool.and_eq_true, decide_eq_true_eq,
      avlGetBalanceFactor_node]
    rw [← ihl, ← ihr]
    constructor
    · rintro ⟨h1, h2, h3, h4, h5⟩
      exact ⟨⟨⟨⟨h3, h4⟩, by omega⟩, h1⟩, h2⟩
    · rintro ⟨⟨⟨⟨h3, h4⟩, h5⟩, h1⟩, h2⟩
      exact ⟨h1, h2, h3, h4, by omega⟩

/-! ## The linked-as-a-leaf property of a fresh insertion -/

/-- `k` is stored in some node of `t` that has no children. -/
def hasLeaf [DecidableEq α] (k : α) : AvlTree α → Bool
  | nil => false
  | node l _ o r => (decide (l = nil) && decide (r = nil) && (k == o)) || hasLeaf k l || hasLeaf k r

theorem linkOnly_spec [LinearOrder α] {cmp : α → α → Int} (hc : LawfulCmp cmp) (k : α) :
    ∀ t : AvlTree α, (inorder t).Pairwise (· < ·) →
    (k ∉ inorder t → (avlTreeLinkOnly cmp t k).2 = none ∧
      hasLeaf k (avlTreeLinkOnly cmp t k).1 = true) ∧
    (k ∈ inorder t → (avlTreeLinkOnly cmp t k).1 = t ∧
      (avlTreeLinkOnly cmp t k).2 = some k) := by
  intro t
  induction t with
  | nil =>
    intro _
    constructor
    · intro _
      exact ⟨rfl, by simp [avlTreeLinkOnly, hasLeaf]⟩
    · intro hcon
      simp [inorder] at hcon
  | node l b o r ihl ihr =>
    intro hbst
    rw [inorder_node, pairwise_node_iff] at hbst
    obtain ⟨hpl, hpr, hlo, hor⟩ := hbst
    rcases lt_trichotomy k o with hko | hko | hko
    · have hres : cmp k o < 0 := (hc k o).1.mpr hko
      rcases hrec : avlTreeLinkOnly cmp l k with ⟨l', d⟩
      have hstep : avlTreeLinkOnly cmp (node l b o r) k = (node l' b o r, d) := by
        simp only [avlTreeLinkOnly]
        rw [if_pos hres, hrec]
      rw [hstep]
      obtain ⟨ihn, ihs⟩ := ihl hpl
      clear ihl ihr
      constructor
      · intro hnot
        have hknl : k ∉ inorder l := fun hx => hnot (by
          simp only [inorder_node, List.mem_append]
          exact Or.inl hx)
        obtain ⟨hd, hleaf⟩ := ihn hknl
        rw [hrec] at hd hleaf
        refine ⟨hd, ?_⟩
        simp only [hasLeaf, Bool.or_eq_true]
        exact Or.inl (Or.inr hleaf)
      · intro hmem
        have hkl : k ∈ inorder l := by
          simp only [inorder_node, List.mem_append, List.mem_cons] at hmem
          rcases hmem with h | h | h
          · exact h
          · exact absurd h (ne_of_lt hko)
          · exact absurd (hor k h) (asymm hko)
        obtain ⟨he, hd⟩ := ihs hkl
        rw [hrec] at he hd
        dsimp only at he hd
        subst he
        exact ⟨rfl, hd⟩
    · have hres : cmp k o = 0 := (hc k o).2.mpr hko
      have hstep : avlTreeLinkOnly cmp (node l b o r) k = (node l b o r, some o) := by
        simp only [avlTreeLinkOnly]
        rw [if_neg (by omega), if_neg (by omega)]
      rw [hstep]
      constructor
      · intro hnot
        exfalso
        apply hnot
        subst hko
        simp [inorder_node]
      · intro _
        subst hko
        exact ⟨rfl, rfl⟩
    · have hgt : 0 < cmp k o := (lawfulCmp_gt hc).mpr hko
      rcases hrec : avlTreeLinkOnly cmp r k with ⟨r', d⟩
      have hstep : avlTreeLinkOnly cmp (node l b o r) k = (node l b o r', d) := by
        simp only [avlTreeLinkOnly]
        rw [if_neg (by omega), if_pos hgt, hrec]
      rw [hstep]
      obtain ⟨ihn, ihs⟩ := ihr hpr
      clear ihl ihr
      constructor
      · intro hnot
        have hknr : k ∉ inorder r := fun hx => hnot (by
          simp only [inorder_node, List.mem_append, List.mem_cons]
          exact Or.inr (Or.inr hx))
        obtain ⟨hd, hleaf⟩ := ihn hknr
        rw [hrec] at hd hleaf
        refine ⟨hd, ?_⟩
        simp only [hasLeaf, Bool.or_eq_true]
        exact Or.inr hleaf
      · intro hmem
        have hkr : k ∈ inorder r := by
          simp only [inorder_node, List.mem_append, List.mem_cons] at hmem
          rcases hmem with h | h | h
          · exact absurd (lt_trans (hlo k h) hko) (lt_irrefl k)
          · exact absurd h (ne_of_gt hko)
          · exact h
        obtain ⟨he, hd⟩ := ihs hkr
        rw [hrec] at he hd
        dsimp only at he hd
        subst he
        exact ⟨rfl, hd⟩

/-! ## Rotation counting for the insertion rebalancer -/

theorem growthRotations_spec (p : AvlTree α) (s : Int) :
    growthRotations p s ≤ 1 ∧
    (growthRotations p s = 1 → (avlHandleSubtreeGrowth p s).2 = true) ∧
    ((avlHandleSubtreeGrowth p s).2 = false → growthRotations p s = 0) ∧
    (avlGetBalanceFactor p ≠ 0 → avlGetBalanceFactor p + s = 0 →
      (avlHandleSubtreeGrowth p s).2 = true ∧ growthRotations p s = 0) := by
  simp only [avlHandleSubtreeGrowth, growthRotations]
  split_ifs <;> simp_all

theorem insertRotations_spec (cmp : α → α → Int) (k : α) :
    ∀ t : AvlTree α, insertRotations cmp t k ≤ 1 ∧
      ((avlTreeInsertAux cmp t k).2.1 = true → insertRotations cmp t k = 0) := by
  intro t
  induction t with
  | nil => simp [insertRotations, avlTreeInsertAux]
  | node l b o r ihl ihr =>
    by_cases h1 : cmp k o < 0
    · rcases hrec : avlTreeInsertAux cmp l k with ⟨l', grew, dup⟩
      cases dup with
      | some d =>
        have hr1 : insertRotations cmp (node l b o r) k = 0 := by
          simp only [insertRotations]
          rw [if_pos h1, hrec]
        have hr2 : avlTreeInsertAux cmp (node l b o r) k = (node l b o r, false, some d) := by
          simp only [avlTreeInsertAux]
          rw [if_pos h1, hrec]
        rw [hr1, hr2]
        simp
      | none =>
        cases grew with
        | false =>
          have hr1 : insertRotations cmp (node l b o r) k = insertRotations cmp l k := by
            simp only [insertRotations]
            rw [if_pos h1, hrec]
            rfl
          have hr2 : avlTreeInsertAux cmp (node l b o r) k = (node l' b o r, false, none) := by
            simp only [avlTreeInsertAux]
            rw [if_pos h1, hrec]
            rfl
          rw [hr1, hr2]
          exact ⟨(ihl).1, by simp⟩
        | true =>
          have hz : insertRotations cmp l k = 0 := (ihl).2 (by rw [hrec])
          have hr1 : insertRotations cmp (node l b o r) k =
              growthRotations (node l' b o r) (-1) := by
            simp only [insertRotations]
            rw [if_pos h1, hrec]
            simp [hz]
          have hr2 : avlTreeInsertAux cmp (node l b o r) k =
              ((avlHandleSubtreeGrowth (node l' b o r) (-1)).1,
               !(avlHandleSubtreeGrowth (node l' b o r) (-1)).2, none) := by
            simp only [avlTreeInsertAux]
            rw [if_pos h1, hrec]
            rfl
          rw [hr1, hr2]
          obtain ⟨hle, -, hzero, -⟩ := growthRotations_spec (node l' b o r) (-1)
          refine ⟨hle, ?_⟩
          intro hgrew
          dsimp only at hgrew
          rw [Bool.not_eq_true'] at hgrew
          exact hzero hgrew
    · by_cases h2 : 0 < cmp k o
      · rcases hrec : avlTreeInsertAux cmp r k with ⟨r', grew, dup⟩
        cases dup with
        | some d =>
          have hr1 : insertRotations cmp (node l b o r) k = 0 := by
            simp only [insertRotations]
            rw [if_neg h1, if_pos h2, hrec]
          have hr2 : avlTreeInsertAux cmp (node l b o r) k = (node l b o r, false, some d) := by
            simp only [avlTreeInsertAux]
            rw [if_neg h1, if_pos h2, hrec]
          rw [hr1, hr2]
          simp
        | none =>
          cases grew with
          | false =>
            have hr1 : insertRotations cmp (node l b o r) k = insertRotations cmp r k := by
              simp only [insertRotations]
              rw [if_neg h1, if_pos h2, hrec]
              rfl
            have hr2 : avlTreeInsertAux cmp (node l b o r) k = (node l b o r', false, none) := by
              simp only [avlTreeInsertAux]
              rw [if_neg h1, if_pos h2, hrec]
              rfl
            rw [hr1, hr2]
            exact ⟨(ihr).1, by simp⟩
          | true =>
            have hz : insertRotations cmp r k = 0 := (ihr).2 (by rw [hrec])
            have hr1 : insertRotations cmp (node l b o r) k =
                growthRotations (node l b o r') 1 := by
              simp only [insertRotations]
              rw [if_neg h1, if_pos h2, hrec]
              simp [hz]
            have hr2 : avlTreeInsertAux cmp (node l b o r) k =
                ((avlHandleSubtreeGrowth (node l b o r') 1).1,
                 !(avlHandleSubtreeGrowth (node l b o r') 1).2, none) := by
              simp only [avlTreeInsertAux]
              rw [if_neg h1, if_pos h2, hrec]
              rfl
            rw [hr1, hr2]
            obtain ⟨hle, -, hzero, -⟩ := growthRotations_spec (node l b o r') 1
            refine ⟨hle, ?_⟩
            intro hgrew
            dsimp only at hgrew
            rw [Bool.not_eq_true'] at hgrew
            exact hzero hgrew
      · have hr1 : insertRotations cmp (node l b o r) k = 0 := by
          simp only [insertRotations]
          rw [if_neg h1, if_neg h2]
        have hr2 : avlTreeInsertAux cmp (node l b o r) k = (node l b o r, false, some o) := by
          simp only [avlTreeInsertAux]
          rw [if_neg h1, if_neg h2]
        rw [hr1, hr2]
        simp


/-! ## Pure evaluation of the double rotation (both signs) -/

theorem doubleRotate_eval_pos (D F G C X : AvlTree α) (bb ab eb : Int) (bo ao eo : α) :
    avlDoDoubleRotate (node D bb bo (node F eb eo G)) (node X ab ao C) 1
      = node (node D ((if eb - 1 ≤ 0 then 0 else -(eb - 1)) + 1) bo F) 1 eo
          (node G ((if 0 ≤ eb - 1 then 0 else -(eb - 1)) + 1) ao C) := by
  simp only [avlDoDoubleRotate, avlGetChild_pos, avlGetChild_neg, avlGetBalanceFactor_node,
    avlSetChild_neg, avlSetChild_pos, avlSetBalanceFactor_node]
  norm_num
  split_ifs <;> simp_all

theorem doubleRotate_eval_neg (D F G C X : AvlTree α) (bb ab eb : Int) (bo ao eo : α) :
    avlDoDoubleRotate (node (node F eb eo G) bb bo D) (node C ab ao X) (-1)
      = node (node C ((if eb - 1 ≤ 0 then 0 else -(eb - 1)) + 1) ao F) 1 eo
          (node G ((if 0 ≤ eb - 1 then 0 else -(eb - 1)) + 1) bo D) := by
  simp only [avlDoDoubleRotate, avlGetChild_pos, avlGetChild_neg, avlGetBalanceFactor_node,
    avlSetChild_neg, avlSetChild_pos, avlSetBalanceFactor_node]
  norm_num
  split_ifs <;> simp_all

/-! ## Claim theorems for the functional model -/

/-- C1: after `AvlTreeInsert` and after `AvlTreeRemove` (modelled by
`avlTreeRemoveKey`) on a tree satisfying the AVL invariants, every node
remaining in the tree has subtree heights differing by at most 1 and
`avlGetBalanceFactor` (the Go `AvlGetBalanceFactor`) returns exactly
height(right) minus height(left). -/
theorem C1_balance_after_operations [LinearOrder α] {cmp : α → α → Int} (hc : LawfulCmp cmp)
    (t : AvlTree α) (k : α) (hbal : isAvlBal t = true) (hbst : isBst t = true) :
    allSubtrees balancedNode (AvlTreeInsert cmp t k).1 = true ∧
    allSubtrees balancedNode (avlTreeRemoveKey cmp t k) = true := by
  have hp := isBst_iff_pairwise.mp hbst
  obtain ⟨hA1, -, -⟩ := AvlTreeInsert_spec hc t k hbal hp
  obtain ⟨hA2, -, -⟩ := avlTreeRemoveKey_spec hc t k hbal hp
  exact ⟨isAvlBal_iff_allSubtrees.mp hA1, isAvlBal_iff_allSubtrees.mp hA2⟩

/-- Witness for C1 at a concrete input. -/
theorem C1_balance_after_operations_witness :
    LawfulCmp (stdCmp : Int → Int → Int) ∧
    isAvlBal (node (node nil 1 1 nil) 1 2 (node nil 1 3 nil)) = true ∧
    isBst (node (node nil 1 1 nil) 1 2 (node nil 1 3 nil)) = true ∧
    (allSubtrees balancedNode
        (AvlTreeInsert stdCmp (node (node nil 1 1 nil) 1 2 (node nil 1 3 nil)) 5).1 = true ∧
     allSubtrees balancedNode
        (avlTreeRemoveKey stdCmp (node (node nil 1 1 nil) 1 2 (node nil 1 3 nil)) 2) = true) :=
  ⟨lawfulCmp_stdCmp, by decide, by decide,
    ⟨(C1_balance_after_operations lawfulCmp_stdCmp
        (node (node nil 1 1 nil) 1 2 (node nil 1 3 nil)) 5 (by decide) (by decide)).1,
     (C1_balance_after_operations lawfulCmp_stdCmp
        (node (node nil 1 1 nil) 1 2 (node nil 1 3 nil)) 2 (by decide) (by decide)).2⟩⟩

/-- C2: on any tree built by a sequence of `AvlTreeInsert` and
`AvlTreeRemove` operations under a lawful comparator, the forward in-order
walk (`AvlTreeFirstInOrder` then repeated `AvlTreeNextInOrder`, modelled
by `avlForwardVisit`) visits exactly the present nodes, each exactly once,
in strictly increasing comparator order, and the backward walk
(`AvlTreeLastInOrder` / `AvlTreePrevInOrder`) is its reverse, strictly
decreasing. -/
theorem C2_inorder_traversal [LinearOrder α] {cmp : α → α → Int} (hc : LawfulCmp cmp)
    (ops : List (AvlOp α)) :
    avlForwardVisit (applyOps cmp ops AvlTree.nil)
        = inorder (applyOps cmp ops AvlTree.nil) ∧
    List.Chain' (fun a b => cmp a b < 0) (avlForwardVisit (applyOps cmp ops AvlTree.nil)) ∧
    (∀ x, x ∈ avlForwardVisit (applyOps cmp ops AvlTree.nil) ↔
      memT x (applyOps cmp ops AvlTree.nil) = true) ∧
    (avlForwardVisit (applyOps cmp ops AvlTree.nil)).length
        = avlSize (applyOps cmp ops AvlTree.nil) ∧
    (avlForwardVisit (applyOps cmp ops AvlTree.nil)).Nodup ∧
    avlBackwardVisit (applyOps cmp ops AvlTree.nil)
        = (avlForwardVisit (applyOps cmp ops AvlTree.nil)).reverse ∧
    List.Chain' (fun a b => 0 < cmp a b) (avlBackwardVisit (applyOps cmp ops AvlTree.nil)) := by
  obtain ⟨hA, hP⟩ := applyOps_invariant hc ops AvlTree.nil rfl List.Pairwise.nil
  have hfw := forward_visit_eq_inorder (applyOps cmp ops AvlTree.nil)
  have hbw := backward_visit_eq_reverse (applyOps cmp ops AvlTree.nil)
  have hchain : List.Chain' (· < ·) (inorder (applyOps cmp ops AvlTree.nil)) := hP.chain'
  refine ⟨hfw, ?_, ?_, ?_, ?_, by rw [hbw, hfw], ?_⟩
  · rw [hfw]
    exact hchain.imp (fun _ _ hab => (hc _ _).1.mpr hab)
  · intro x
    rw [hfw]
    exact mem_inorder_iff_memT
  · rw [hfw]
    exact length_inorder _
  · rw [hfw]
    exact hP.imp ne_of_lt
  · rw [hbw]
    have : List.Chain' (fun a b => b < a) (inorder (applyOps cmp ops AvlTree.nil)).reverse := by
      rw [List.chain'_reverse]
      exact hchain
    exact this.imp (fun _ _ hab => (lawfulCmp_gt hc).mpr hab)

/-- Witness for C2 at a concrete operation sequence. -/
theorem C2_inorder_traversal_witness :
    LawfulCmp (stdCmp : Int → Int → Int) ∧
    (avlForwardVisit (applyOps stdCmp
        [AvlOp.insert 2, AvlOp.insert 1, AvlOp.insert 3, AvlOp.remove 1] AvlTree.nil)
      = inorder (applyOps stdCmp
        [AvlOp.insert 2, AvlOp.insert 1, AvlOp.insert 3, AvlOp.remove 1] AvlTree.nil)) :=
  ⟨lawfulCmp_stdCmp,
    (C2_inorder_traversal lawfulCmp_stdCmp
      [AvlOp.insert 2, AvlOp.insert 1, AvlOp.insert 3, AvlOp.remove 1]).1⟩

/-- C3: if the node comparator returns 0 against a stored node during
`AvlTreeInsert`, the insert returns that node's owner and the tree is left
completely unmodified; otherwise the insert returns the absent marker
(`none`), the descent of the source links the new node as a leaf at the
discovered empty position (`avlTreeLinkOnly`, `hasLeaf`), and the
resulting tree holds exactly the old owners plus the new one. -/
theorem C3_duplicate_insert [LinearOrder α] {cmp : α → α → Int} (hc : LawfulCmp cmp)
    (t : AvlTree α) (k : α) (hbal : isAvlBal t = true) (hbst : isBst t = true) :
    (∀ d, (AvlTreeInsert cmp t k).2 = some d →
      (AvlTreeInsert cmp t k).1 = t ∧ memT d t = true ∧ cmp k d = 0) ∧
    ((AvlTreeInsert cmp t k).2 = none →
      memT k t = false ∧
      (avlTreeLinkOnly cmp t k).2 = none ∧
      hasLeaf k (avlTreeLinkOnly cmp t k).1 = true ∧
      (∀ x, memT x (AvlTreeInsert cmp t k).1 = true ↔ memT x t = true ∨ x = k) ∧
      avlSize (AvlTreeInsert cmp t k).1 = avlSize t + 1) := by
  have hp := isBst_iff_pairwise.mp hbst
  have h := insert_aux_spec hc k t hbal hp
  rw [AvlTreeInsert_eq]
  dsimp only
  constructor
  · intro d hd
    obtain ⟨he, -, hdk, hkin⟩ := h.2 d hd
    subst hdk
    exact ⟨he, mem_inorder_iff_memT.mp hkin, (hc d d).2.mpr rfl⟩
  · intro hnone
    obtain ⟨-, -, hM, hLen, hNotIn, -, -⟩ := h.1 hnone
    obtain ⟨hlink, -⟩ := linkOnly_spec hc k t hp
    obtain ⟨hl1, hl2⟩ := hlink hNotIn
    refine ⟨?_, hl1, hl2, ?_, ?_⟩
    · rw [← Bool.not_eq_true]
      rw [← mem_inorder_iff_memT]
      exact hNotIn
    · intro x
      rw [← mem_inorder_iff_memT, ← mem_inorder_iff_memT]
      exact hM x
    · rw [← length_inorder, ← length_inorder, hLen]

/-- Witness for C3 at a concrete input (covering both outcomes). -/
theorem C3_duplicate_insert_witness :
    LawfulCmp (stdCmp : Int → Int → Int) ∧
    isAvlBal (node nil 2 2 (node nil 1 3 nil)) = true ∧
    isBst (node nil 2 2 (node nil 1 3 nil)) = true ∧
    ((AvlTreeInsert stdCmp (node nil 2 2 (node nil 1 3 nil)) 3).2 = some 3 →
      (AvlTreeInsert stdCmp (node nil 2 2 (node nil 1 3 nil)) 3).1
        = node nil 2 2 (node nil 1 3 nil) ∧
      memT 3 (node nil 2 2 (node nil 1 3 nil)) = true ∧ stdCmp (3:Int) 3 = 0) :=
  ⟨lawfulCmp_stdCmp, by decide, by decide,
    fun hd => (C3_duplicate_insert lawfulCmp_stdCmp
      (node nil 2 2 (node nil 1 3 nil)) 3 (by decide) (by decide)).1 3 hd⟩

/-- C4: inserting any list of pairwise-distinct keys into the empty tree
and then removing all of them (in any order) leaves the tree empty, and
every subsequent `AvlTreeLookup` for any of those keys returns the absent
marker. -/
theorem C4_round_trip [LinearOrder α] {cmp : α → α → Int} (hc : LawfulCmp cmp)
    (L Lrem : List α) (hnd : L.Nodup) (hperm : Lrem.Perm L) :
    removeAll cmp (insertAll cmp AvlTree.nil L) Lrem = AvlTree.nil ∧
    (∀ k ∈ L, AvlTreeLookup cmp (removeAll cmp (insertAll cmp AvlTree.nil L) Lrem) k
      = none) := by
  obtain ⟨hA1, hP1, hM1⟩ := insertAll_spec hc L AvlTree.nil rfl List.Pairwise.nil
  obtain ⟨hA2, hP2, hM2⟩ := removeAll_spec hc Lrem _ hA1 hP1
  have hempty : inorder (removeAll cmp (insertAll cmp AvlTree.nil L) Lrem) = [] := by
    rw [List.eq_nil_iff_forall_not_mem]
    intro x hx
    obtain ⟨hin, hnL'⟩ := (hM2 x).1 hx
    rcases (hM1 x).1 hin with hcon | hinL
    · simp [inorder] at hcon
    · exact hnL' (hperm.mem_iff.mpr hinL)
  have hnil := eq_nil_of_inorder_nil hempty
  refine ⟨hnil, ?_⟩
  intro k _
  rw [hnil]
  rfl

/-- Witness for C4 at a concrete input. -/
theorem C4_round_trip_witness :
    LawfulCmp (stdCmp : Int → Int → Int) ∧
    ([1, 2, 3] : List Int).Nodup ∧ ([3, 1, 2] : List Int).Perm [1, 2, 3] ∧
    removeAll stdCmp (insertAll stdCmp AvlTree.nil [1, 2, 3]) [3, 1, 2] = AvlTree.nil :=
  ⟨lawfulCmp_stdCmp, by decide, by decide,
    (C4_round_trip lawfulCmp_stdCmp [1, 2, 3] [3, 1, 2] (by decide) (by decide)).1⟩

/-- C6: one `AvlTreeInsert` performs at most one rotation operation in its
whole rebalancing ascent (`insertRotations` counts single and double
rotations of the ascent, one each); whenever `avlHandleSubtreeGrowth`
performs its rotation it reports the ascent finished (stops immediately);
and at an ancestor whose balance factor becomes 0 after adjustment the
handler stops without rotating. -/
theorem C6_insert_one_rotation (cmp : α → α → Int) (t : AvlTree α) (k : α) :
    insertRotations cmp t k ≤ 1 ∧
    (∀ (p : AvlTree α) (s : Int), growthRotations p s = 1 →
      (avlHandleSubtreeGrowth p s).2 = true) ∧
    (∀ (p : AvlTree α) (s : Int), avlGetBalanceFactor p ≠ 0 →
      avlGetBalanceFactor p + s = 0 →
      (avlHandleSubtreeGrowth p s).2 = true ∧ growthRotations p s = 0) := by
  refine ⟨(insertRotations_spec cmp k t).1, ?_, ?_⟩
  · intro p s h
    exact (growthRotations_spec p s).2.1 h
  · intro p s h1 h2
    exact (growthRotations_spec p s).2.2.2 h1 h2

/-- Witness for C6 at a concrete input. -/
theorem C6_insert_one_rotation_witness :
    insertRotations stdCmp (node nil 0 1 (node nil 1 2 nil)) (3:Int) ≤ 1 ∧
    growthRotations (node nil 2 (1:Int) (node nil 1 2 nil)) 1 = 1 ∧
    (avlHandleSubtreeGrowth (node nil 2 (1:Int) (node nil 1 2 nil)) 1).2 = true ∧
    avlGetBalanceFactor (node nil 0 (5:Int) nil) ≠ 0 ∧
    (avlHandleSubtreeGrowth (node nil 0 (5:Int) nil) 1).2 = true :=
  ⟨(C6_insert_one_rotation stdCmp (node nil 0 1 (node nil 1 2 nil)) 3).1,
   by decide,
   (C6_insert_one_rotation stdCmp nil 0).2.1 (node nil 2 (1:Int) (node nil 1 2 nil)) 1
     (by decide),
   by decide,
   ((C6_insert_one_rotation stdCmp nil 0).2.2 (node nil 0 (5:Int) nil) 1
     (by decide) (by decide)).1⟩

/-- C7 (amended): `avlDoDoubleRotate(root, B, A, sign)` returns `E` (the
child of `B` on the `sign` side) as the new subtree root with post-rotation
balance factor 0; when `E` originally had balance factor 0 both `A` and `B`
become neutral; when `E` originally had a nonzero balance factor `e`,
exactly one of `A`/`B` receives `-e` and the other becomes neutral, the
split case-matched on the sign of `e` relative to `sign` (`e = sign`:
`B` receives `-e`; `e = -sign`: `A` receives `-e`).  Both signs are
covered; the post-rotation position of `A` is the child of the result on
the `sign` side and `B` the child on the `-sign` side. -/
theorem C7_double_rotate_amended (D F G C : AvlTree α) (bb ab eb : Int) (bo ao eo : α) :
    (ownerOf (avlDoDoubleRotate (node D bb bo (node F eb eo G))
        (node (node D bb bo (node F eb eo G)) ab ao C) 1) = some eo ∧
     avlGetBalanceFactor (avlDoDoubleRotate (node D bb bo (node F eb eo G))
        (node (node D bb bo (node F eb eo G)) ab ao C) 1) = 0 ∧
     ownerOf (avlGetChild (avlDoDoubleRotate (node D bb bo (node F eb eo G))
        (node (node D bb bo (node F eb eo G)) ab ao C) 1) 1) = some ao ∧
     ownerOf (avlGetChild (avlDoDoubleRotate (node D bb bo (node F eb eo G))
        (node (node D bb bo (node F eb eo G)) ab ao C) 1) (-1)) = some bo ∧
     (eb - 1 = 0 →
       avlGetBalanceFactor (avlGetChild (avlDoDoubleRotate (node D bb bo (node F eb eo G))
          (node (node D bb bo (node F eb eo G)) ab ao C) 1) 1) = 0 ∧
       avlGetBalanceFactor (avlGetChild (avlDoDoubleRotate (node D bb bo (node F eb eo G))
          (node (node D bb bo (node F eb eo G)) ab ao C) 1) (-1)) = 0) ∧
     (eb - 1 = 1 →
       avlGetBalanceFactor (avlGetChild (avlDoDoubleRotate (node D bb bo (node F eb eo G))
          (node (node D bb bo (node F eb eo G)) ab ao C) 1) 1) = 0 ∧
       avlGetBalanceFactor (avlGetChild (avlDoDoubleRotate (node D bb bo (node F eb eo G))
          (node (node D bb bo (node F eb eo G)) ab ao C) 1) (-1)) = -(eb - 1)) ∧
     (eb - 1 = -1 →
       avlGetBalanceFactor (avlGetChild (avlDoDoubleRotate (node D bb bo (node F eb eo G))
          (node (node D bb bo (node F eb eo G)) ab ao C) 1) 1) = -(eb - 1) ∧
       avlGetBalanceFactor (avlGetChild (avlDoDoubleRotate (node D bb bo (node F eb eo G))
          (node (node D bb bo (node F eb eo G)) ab ao C) 1) (-1)) = 0)) ∧
    (ownerOf (avlDoDoubleRotate (node (node F eb eo G) bb bo D)
        (node C ab ao (node (node F eb eo G) bb bo D)) (-1)) = some eo ∧
     avlGetBalanceFactor (avlDoDoubleRotate (node (node F eb eo G) bb bo D)
        (node C ab ao (node (node F eb eo G) bb bo D)) (-1)) = 0 ∧
     ownerOf (avlGetChild (avlDoDoubleRotate (node (node F eb eo G) bb bo D)
        (node C ab ao (node (node F eb eo G) bb bo D)) (-1)) (-1)) = some ao ∧
     ownerOf (avlGetChild (avlDoDoubleRotate (node (node F eb eo G) bb bo D)
        (node C ab ao (node (node F eb eo G) bb bo D)) (-1)) 1) = some bo ∧
     (eb - 1 = 0 →
       avlGetBalanceFactor (avlGetChild (avlDoDoubleRotate (node (node F eb eo G) bb bo D)
          (node C ab ao (node (node F eb eo G) bb bo D)) (-1)) (-1)) = 0 ∧
       avlGetBalanceFactor (avlGetChild (avlDoDoubleRotate (node (node F eb eo G) bb bo D)
          (node C ab ao (node (node F eb eo G) bb bo D)) (-1)) 1) = 0) ∧
     (eb - 1 = -1 →
       avlGetBalanceFactor (avlGetChild (avlDoDoubleRotate (node (node F eb eo G) bb bo D)
          (node C ab ao (node (node F eb eo G) bb bo D)) (-1)) (-1)) = 0 ∧
       avlGetBalanceFactor (avlGetChild (avlDoDoubleRotate (node (node F eb eo G) bb bo D)
          (node C ab ao (node (node F eb eo G) bb bo D)) (-1)) 1) = -(eb - 1)) ∧
     (eb - 1 = 1 →
       avlGetBalanceFactor (avlGetChild (avlDoDoubleRotate (node (node F eb eo G) bb bo D)
          (node C ab ao (node (node F eb eo G) bb bo D)) (-1)) (-1)) = -(eb - 1) ∧
       avlGetBalanceFactor (avlGetChild (avlDoDoubleRotate (node (node F eb eo G) bb bo D)
          (node C ab ao (node (node F eb eo G) bb bo D)) (-1)) 1) = 0)) := by
  rw [doubleRotate_eval_pos, doubleRotate_eval_neg]
  constructor
  · refine ⟨rfl, by simp [ownerOf], by simp [ownerOf], by simp [ownerOf], ?_, ?_, ?_⟩
    all_goals intro he
    all_goals simp only [avlGetChild_pos, avlGetChild_neg, avlGetBalanceFactor_node]
    all_goals split_ifs <;> omega
  · refine ⟨rfl, by simp [ownerOf], by simp [ownerOf], by simp [ownerOf], ?_, ?_, ?_⟩
    all_goals intro he
    all_goals simp only [avlGetChild_pos, avlGetChild_neg, avlGetBalanceFactor_node]
    all_goals split_ifs <;> omega

/-- Witness for C7 (amended) at a concrete input. -/
theorem C7_double_rotate_amended_witness :
    (0:Int) - 1 = -1 ∧
    (avlGetBalanceFactor (avlGetChild (avlDoDoubleRotate
        (node (node nil 1 (1:Int) nil) 1 10 (node (node nil 1 2 nil) 0 20 nil))
        (node (node (node nil 1 (1:Int) nil) 1 10 (node (node nil 1 2 nil) 0 20 nil))
          1 30 nil) 1) 1) = -((0:Int) - 1) ∧
     avlGetBalanceFactor (avlGetChild (avlDoDoubleRotate
        (node (node nil 1 (1:Int) nil) 1 10 (node (node nil 1 2 nil) 0 20 nil))
        (node (node (node nil 1 (1:Int) nil) 1 10 (node (node nil 1 2 nil) 0 20 nil))
          1 30 nil) 1) (-1)) = 0) :=
  ⟨by decide,
    ((C7_double_rotate_amended (node nil 1 (1:Int) nil) (node nil 1 2 nil) nil nil
      1 1 0 10 30 20).1.2.2.2.2.2.2 (by decide))⟩

/-- C7 counterexample: the claim as stated says that `A` and `B` both
become neutral unless `E`'s original balance factor equalled `sign`'s
polarity.  Here `sign = +1` and `E`'s original balance factor is `-1`
(not `sign`'s polarity), yet `A`'s post-rotation balance factor is `+1`,
not 0: the non-neutral case also occurs when `e = -sign`. -/
theorem C7_counterexample :
    avlGetBalanceFactor
        (avlGetChild (node (node nil 1 (1:Int) nil) 1 10 (node (node nil 1 2 nil) 0 20 nil)) 1)
      = -1 ∧
    ((-1 : Int) = 1) = False ∧
    avlGetBalanceFactor (avlGetChild (avlDoDoubleRotate
        (node (node nil 1 (1:Int) nil) 1 10 (node (node nil 1 2 nil) 0 20 nil))
        (node (node (node nil 1 (1:Int) nil) 1 10 (node (node nil 1 2 nil) 0 20 nil))
          1 30 nil) 1) 1) = 1 := by
  refine ⟨by decide, by simp, by decide⟩


end Avl
